import Mathlib

/-!
# Verification of the Legion task-lifecycle core (legion_tasks.cc)

A shallow embedding of the task lifecycle state machine and the dynamic
index-space decomposition/aggregation protocol of
`src/runtime/legion/legion_tasks.cc`, together with proofs of the
specification's testable properties.

Conventions:
* machine integers are modelled as `Nat`/`Int` (no overflow is relevant at the
  sizes the checked invariants constrain);
* `Fraction<long long>` (declared in `legion_utilities.h`, which is not part of
  this tree) is modelled from the spec as an exact rational number;
* the `DEBUG_LEGION` compile-time assertion blocks are modelled either as
  legality (precondition) predicates on call traces or as an explicit `debug`
  flag where a claim depends on them.
-/

namespace Legion

/-! ## TaskOp completion/commit flags

`TaskOp::activate_task` initializes `complete_received`, `commit_received`,
`children_complete`, `children_commit` to `false`.  The four notification
entry points `trigger_complete`, `trigger_commit`, `trigger_children_complete`
and `trigger_children_committed` each set one flag under the operation mutex
and fire the corresponding transition (`trigger_task_complete` /
`trigger_task_commit`) exactly when the partner flag is already set. -/

structure TaskOpState where
  complete_received : Bool
  commit_received : Bool
  children_complete : Bool
  children_commit : Bool
deriving DecidableEq, Repr

/-- Flag state established by `TaskOp::activate_task`. -/
def TaskOpState.init : TaskOpState :=
  { complete_received := false, commit_received := false,
    children_complete := false, children_commit := false }

/-- The four notification entry points of a `TaskOp`. -/
inductive Notification where
  | selfComplete
  | selfCommit
  | childrenComplete
  | childrenCommit
deriving DecidableEq, Repr

/-- The `DEBUG_LEGION` assertions guarding each notification entry point
(`TaskOp::trigger_complete`, `TaskOp::trigger_commit`,
`TaskOp::trigger_children_complete`, `TaskOp::trigger_children_committed`). -/
def notifAssert (s : TaskOpState) : Notification → Bool
  | .selfComplete => !s.complete_received && !s.commit_received
  | .selfCommit => s.complete_received && !s.commit_received
  | .childrenComplete =>
      !s.children_complete && (!s.children_commit || !s.commit_received)
  | .childrenCommit =>
      (s.children_complete || !s.commit_received) && !s.children_commit

/-- Flag update performed by each notification entry point. -/
def notifStep (s : TaskOpState) : Notification → TaskOpState
  | .selfComplete => { s with complete_received := true }
  | .selfCommit => { s with commit_received := true }
  | .childrenComplete => { s with children_complete := true }
  | .childrenCommit => { s with children_commit := true }

/-- Whether the call invokes `trigger_task_complete` (the complete
transition): `trigger_complete` fires it when `children_complete` already
holds, `trigger_children_complete` fires it when `complete_received` already
holds. -/
def firesComplete (s : TaskOpState) : Notification → Bool
  | .selfComplete => s.children_complete
  | .childrenComplete => s.complete_received
  | .selfCommit => false
  | .childrenCommit => false

/-- Whether the call invokes `trigger_task_commit` (the commit transition). -/
def firesCommit (s : TaskOpState) : Notification → Bool
  | .selfCommit => s.children_commit
  | .childrenCommit => s.commit_received
  | .selfComplete => false
  | .childrenComplete => false

/-- Run a sequence of notifications. -/
def runTaskOp (s : TaskOpState) : List Notification → TaskOpState
  | [] => s
  | n :: l => runTaskOp (notifStep s n) l

/-- A notification trace is legal when every `DEBUG_LEGION` assertion holds
at the state in which the call executes. -/
def legalFrom (s : TaskOpState) : List Notification → Bool
  | [] => true
  | n :: l => notifAssert s n && legalFrom (notifStep s n) l

/-- Number of times the complete transition fires along a trace. -/
def completeFires (s : TaskOpState) : List Notification → Nat
  | [] => 0
  | n :: l => (if firesComplete s n then 1 else 0) + completeFires (notifStep s n) l

/-- Number of times the commit transition fires along a trace. -/
def commitFires (s : TaskOpState) : List Notification → Nat
  | [] => 0
  | n :: l => (if firesCommit s n then 1 else 0) + commitFires (notifStep s n) l

theorem runTaskOp_complete_received (l : List Notification) :
    ∀ s, (runTaskOp s l).complete_received =
      (s.complete_received || l.contains Notification.selfComplete) := by
  induction l with
  | nil => intro s; simp [runTaskOp]
  | cons n l ih =>
      intro s
      cases n <;>
        simp [runTaskOp, notifStep, ih, List.contains_cons, Bool.or_assoc]

theorem runTaskOp_commit_received (l : List Notification) :
    ∀ s, (runTaskOp s l).commit_received =
      (s.commit_received || l.contains Notification.selfCommit) := by
  induction l with
  | nil => intro s; simp [runTaskOp]
  | cons n l ih =>
      intro s
      cases n <;>
        simp [runTaskOp, notifStep, ih, List.contains_cons, Bool.or_assoc]

theorem runTaskOp_children_complete (l : List Notification) :
    ∀ s, (runTaskOp s l).children_complete =
      (s.children_complete || l.contains Notification.childrenComplete) := by
  induction l with
  | nil => intro s; simp [runTaskOp]
  | cons n l ih =>
      intro s
      cases n <;>
        simp [runTaskOp, notifStep, ih, List.contains_cons, Bool.or_assoc]

theorem runTaskOp_children_commit (l : List Notification) :
    ∀ s, (runTaskOp s l).children_commit =
      (s.children_commit || l.contains Notification.childrenCommit) := by
  induction l with
  | nil => intro s; simp [runTaskOp]
  | cons n l ih =>
      intro s
      cases n <;>
        simp [runTaskOp, notifStep, ih, List.contains_cons, Bool.or_assoc]

theorem completeFires_eq (l : List Notification) :
    ∀ s, legalFrom s l = true →
      completeFires s l =
        if ((runTaskOp s l).complete_received && (runTaskOp s l).children_complete)
            && !(s.complete_received && s.children_complete) then 1 else 0 := by
  induction l with
  | nil =>
      intro s _
      obtain ⟨cr, cm, cc, ck⟩ := s
      simp only [completeFires, runTaskOp]
      cases cr <;> cases cc <;> simp
  | cons n l ih =>
      intro s hleg
      obtain ⟨cr, cm, cc, ck⟩ := s
      rw [legalFrom, Bool.and_eq_true] at hleg
      obtain ⟨h1, h2⟩ := hleg
      have hrec := ih _ h2
      cases n with
      | selfComplete =>
          rw [notifAssert, Bool.and_eq_true, Bool.not_eq_true', Bool.not_eq_true'] at h1
          rw [completeFires, firesComplete, hrec, runTaskOp,
              runTaskOp_complete_received, runTaskOp_children_complete]
          have hcr : cr = false := h1.1
          subst hcr
          simp only [notifStep]
          cases cc <;> simp
      | childrenComplete =>
          rw [notifAssert, Bool.and_eq_true, Bool.not_eq_true'] at h1
          rw [completeFires, firesComplete, hrec, runTaskOp,
              runTaskOp_complete_received, runTaskOp_children_complete]
          have hcc : cc = false := h1.1
          subst hcc
          simp only [notifStep]
          cases cr <;> simp
      | selfCommit =>
          rw [completeFires, firesComplete, hrec, runTaskOp,
              runTaskOp_complete_received, runTaskOp_children_complete]
          simp [notifStep]
      | childrenCommit =>
          rw [completeFires, firesComplete, hrec, runTaskOp,
              runTaskOp_complete_received, runTaskOp_children_complete]
          simp [notifStep]

theorem commitFires_eq (l : List Notification) :
    ∀ s, legalFrom s l = true →
      commitFires s l =
        if ((runTaskOp s l).commit_received && (runTaskOp s l).children_commit)
            && !(s.commit_received && s.children_commit) then 1 else 0 := by
  induction l with
  | nil =>
      intro s _
      obtain ⟨cr, cm, cc, ck⟩ := s
      simp only [commitFires, runTaskOp]
      cases cm <;> cases ck <;> simp
  | cons n l ih =>
      intro s hleg
      obtain ⟨cr, cm, cc, ck⟩ := s
      rw [legalFrom, Bool.and_eq_true] at hleg
      obtain ⟨h1, h2⟩ := hleg
      have hrec := ih _ h2
      cases n with
      | selfCommit =>
          rw [notifAssert, Bool.and_eq_true, Bool.not_eq_true'] at h1
          rw [commitFires, firesCommit, hrec, runTaskOp,
              runTaskOp_commit_received, runTaskOp_children_commit]
          have hcm : cm = false := h1.2
          subst hcm
          simp only [notifStep]
          cases ck <;> simp
      | childrenCommit =>
          rw [notifAssert, Bool.and_eq_true, Bool.not_eq_true'] at h1
          rw [commitFires, firesCommit, hrec, runTaskOp,
              runTaskOp_commit_received, runTaskOp_children_commit]
          have hck : ck = false := h1.2
          subst hck
          simp only [notifStep]
          cases cm <;> simp
      | selfComplete =>
          rw [commitFires, firesCommit, hrec, runTaskOp,
              runTaskOp_commit_received, runTaskOp_children_commit]
          simp [notifStep]
      | childrenComplete =>
          rw [commitFires, firesCommit, hrec, runTaskOp,
              runTaskOp_commit_received, runTaskOp_children_commit]
          simp [notifStep]

theorem legalFrom_take (l : List Notification) :
    ∀ s n, legalFrom s l = true → legalFrom s (l.take n) = true := by
  induction l with
  | nil => intro s n _; simp [legalFrom]
  | cons a l ih =>
      intro s n h
      cases n with
      | zero => simp [legalFrom]
      | succ n =>
          rw [List.take_succ_cons]
          rw [legalFrom, Bool.and_eq_true] at h ⊢
          exact ⟨h.1, ih _ n h.2⟩

theorem legal_selfCommit_implies_selfComplete (l : List Notification) :
    ∀ s, legalFrom s l = true → l.contains Notification.selfCommit = true →
      (s.complete_received || l.contains Notification.selfComplete) = true := by
  induction l with
  | nil => intro s _ hc; simp at hc
  | cons a l ih =>
      intro s hleg hc
      rw [legalFrom, Bool.and_eq_true] at hleg
      obtain ⟨h1, h2⟩ := hleg
      cases a with
      | selfCommit =>
          rw [notifAssert, Bool.and_eq_true] at h1
          simp [h1.1]
      | selfComplete =>
          simp [List.contains_cons]
      | childrenComplete =>
          have hc' : l.contains Notification.selfCommit = true := by
            simpa [List.contains_cons] using hc
          have hres := ih _ h2 hc'
          simpa [notifStep, List.contains_cons] using hres
      | childrenCommit =>
          have hc' : l.contains Notification.selfCommit = true := by
            simpa [List.contains_cons] using hc
          have hres := ih _ h2 hc'
          simpa [notifStep, List.contains_cons] using hres

/-- Caller contract of `trigger_children_committed`: every child of an
operation reports complete before it reports committed, so the
children-committed notification can only arrive after the children-complete
notification (`SingleTask::shard_off`, `SliceTask::record_child_complete` /
`record_child_committed`, `IndexTask::return_slice_complete` /
`return_slice_commit` all preserve this order). -/
def wellOrderedFrom (seen : Bool) : List Notification → Bool
  | [] => true
  | .childrenCommit :: l => seen && wellOrderedFrom seen l
  | .childrenComplete :: l => wellOrderedFrom true l
  | .selfComplete :: l => wellOrderedFrom seen l
  | .selfCommit :: l => wellOrderedFrom seen l

theorem wellOrderedFrom_take (l : List Notification) :
    ∀ seen n, wellOrderedFrom seen l = true →
      wellOrderedFrom seen (l.take n) = true := by
  induction l with
  | nil => intro seen n _; simp [wellOrderedFrom]
  | cons a l ih =>
      intro seen n h
      cases n with
      | zero => cases seen <;> simp [wellOrderedFrom]
      | succ n =>
          rw [List.take_succ_cons]
          cases a with
          | childrenCommit =>
              rw [wellOrderedFrom, Bool.and_eq_true] at h ⊢
              exact ⟨h.1, ih _ n h.2⟩
          | childrenComplete =>
              rw [wellOrderedFrom] at h ⊢
              exact ih _ n h
          | selfComplete =>
              rw [wellOrderedFrom] at h ⊢
              exact ih _ n h
          | selfCommit =>
              rw [wellOrderedFrom] at h ⊢
              exact ih _ n h

theorem wellOrdered_childrenCommit_implies (l : List Notification) :
    ∀ seen, wellOrderedFrom seen l = true →
      l.contains Notification.childrenCommit = true →
      (seen || l.contains Notification.childrenComplete) = true := by
  induction l with
  | nil => intro seen _ hc; simp at hc
  | cons a l ih =>
      intro seen hw hc
      cases a with
      | childrenCommit =>
          rw [wellOrderedFrom, Bool.and_eq_true] at hw
          simp [hw.1]
      | childrenComplete =>
          simp [List.contains_cons]
      | selfComplete =>
          rw [wellOrderedFrom] at hw
          have hc' : l.contains Notification.childrenCommit = true := by
            simpa [List.contains_cons] using hc
          have hres := ih _ hw hc'
          simpa [List.contains_cons] using hres
      | selfCommit =>
          rw [wellOrderedFrom] at hw
          have hc' : l.contains Notification.childrenCommit = true := by
            simpa [List.contains_cons] using hc
          have hres := ih _ hw hc'
          simpa [List.contains_cons] using hres

/-- **C4.** For every Task Operation, the complete (respectively commit)
transition fires exactly once, exactly when both the operation's own
notification and its children notification have arrived; the self-driven and
child-driven paths commute — the step that fires the transition is exactly
the one whose partner notification already sits in the strict prefix — and
the transition is never double-fired. -/
theorem taskop_transitions_fire_once_commutative (l : List Notification)
    (h : legalFrom TaskOpState.init l = true) :
    (completeFires TaskOpState.init l =
      if l.contains Notification.selfComplete &&
          l.contains Notification.childrenComplete then 1 else 0) ∧
    (commitFires TaskOpState.init l =
      if l.contains Notification.selfCommit &&
          l.contains Notification.childrenCommit then 1 else 0) ∧
    (∀ i, (hi : i < l.length) →
      (firesComplete (runTaskOp TaskOpState.init (l.take i)) l[i] = true ↔
        (l[i] = Notification.selfComplete ∧
          (l.take i).contains Notification.childrenComplete = true) ∨
        (l[i] = Notification.childrenComplete ∧
          (l.take i).contains Notification.selfComplete = true))) := by
  refine ⟨?_, ?_, ?_⟩
  · rw [completeFires_eq l _ h, runTaskOp_complete_received,
        runTaskOp_children_complete]
    simp [TaskOpState.init]
  · rw [commitFires_eq l _ h, runTaskOp_commit_received,
        runTaskOp_children_commit]
    simp [TaskOpState.init]
  · intro i hi
    cases hn : l[i] <;>
      simp [hn, firesComplete, runTaskOp_children_complete,
        runTaskOp_complete_received, TaskOpState.init]

theorem taskop_transitions_fire_once_commutative_witness :
    legalFrom TaskOpState.init
      [Notification.selfComplete, Notification.childrenComplete,
       Notification.selfCommit, Notification.childrenCommit] = true ∧
    completeFires TaskOpState.init
      [Notification.selfComplete, Notification.childrenComplete,
       Notification.selfCommit, Notification.childrenCommit] = 1 ∧
    commitFires TaskOpState.init
      [Notification.selfComplete, Notification.childrenComplete,
       Notification.selfCommit, Notification.childrenCommit] = 1 := by
  have h := taskop_transitions_fire_once_commutative
    [Notification.selfComplete, Notification.childrenComplete,
     Notification.selfCommit, Notification.childrenCommit] (by decide)
  exact ⟨by decide, by rw [h.1]; decide, by rw [h.2.1]; decide⟩

/-- **C5.** No Task Operation reaches the committed state before the complete
state: along every prefix of a legal notification trace, the number of commit
transitions that have fired never exceeds the number of complete transitions
that have fired, so the (unique) commit firing happens strictly after the
complete firing. -/
theorem commit_transition_after_complete (l : List Notification)
    (hleg : legalFrom TaskOpState.init l = true)
    (hord : wellOrderedFrom false l = true) :
    ∀ n, commitFires TaskOpState.init (l.take n) ≤
      completeFires TaskOpState.init (l.take n) := by
  intro n
  have hlegp := legalFrom_take l TaskOpState.init n hleg
  have hordp := wellOrderedFrom_take l false n hord
  rw [completeFires_eq _ _ hlegp, commitFires_eq _ _ hlegp,
      runTaskOp_complete_received, runTaskOp_children_complete,
      runTaskOp_commit_received, runTaskOp_children_commit]
  simp only [TaskOpState.init, Bool.false_or, Bool.and_false, Bool.not_false,
    Bool.and_true]
  by_cases hsc : (l.take n).contains Notification.selfCommit = true
  · by_cases hcc : (l.take n).contains Notification.childrenCommit = true
    · have h1 := legal_selfCommit_implies_selfComplete _ _ hlegp hsc
      have h2 := wellOrdered_childrenCommit_implies _ _ hordp hcc
      simp only [TaskOpState.init, Bool.false_or] at h1 h2
      have m1 : Notification.selfComplete ∈ List.take n l := by simpa using h1
      have m2 : Notification.childrenComplete ∈ List.take n l := by simpa using h2
      simp [m1, m2]
      split <;> simp
    · simp [Bool.not_eq_true] at hcc
      simp [hcc]
  · simp [Bool.not_eq_true] at hsc
    simp [hsc]

theorem commit_transition_after_complete_witness :
    legalFrom TaskOpState.init
      [Notification.selfComplete, Notification.childrenComplete,
       Notification.childrenCommit, Notification.selfCommit] = true ∧
    wellOrderedFrom false
      [Notification.selfComplete, Notification.childrenComplete,
       Notification.childrenCommit, Notification.selfCommit] = true ∧
    commitFires TaskOpState.init
      ([Notification.selfComplete, Notification.childrenComplete,
        Notification.childrenCommit, Notification.selfCommit].take 3) ≤
    completeFires TaskOpState.init
      ([Notification.selfComplete, Notification.childrenComplete,
        Notification.childrenCommit, Notification.selfCommit].take 3) :=
  ⟨by decide, by decide,
    commit_transition_after_complete _ (by decide) (by decide) 3⟩

/-! ## IndexTask slice-report accounting

`IndexTask::activate_index_task` zeroes `total_points`, `mapped_points`,
`complete_points` and `committed_points` and resets `slice_fraction` to the
empty fraction `0/1`; `MultiTask::activate_multi` resets
`children_complete_invoked` and `children_commit_invoked` to false. -/

/-- Modelled from the spec: the `Fraction<long long>` rational-arithmetic
helper lives in `legion_utilities.h`, which is not part of this tree; per the
spec it accumulates `Σ 1/denominator` exactly, so it is modelled as an exact
rational with `add` as rational addition and `is_whole` testing for the
rational value 1. -/
abbrev SliceFraction := ℚ

structure IndexTaskState where
  total_points : Nat
  mapped_points : Nat
  complete_points : Nat
  committed_points : Nat
  slice_fraction : SliceFraction
  children_complete_invoked : Bool
  children_commit_invoked : Bool
deriving DecidableEq, Repr

/-- Counter state established by `IndexTask::activate_index_task`. -/
def IndexTaskState.activate : IndexTaskState :=
  { total_points := 0, mapped_points := 0, complete_points := 0,
    committed_points := 0, slice_fraction := 0,
    children_complete_invoked := false, children_commit_invoked := false }

/-- Outcome of `IndexTask::return_slice_mapped`: `reports_mapped` records the
`need_trigger` path (the launch reports "mapped" via `complete_mapping`), the
other two record the optional forwarding to `trigger_children_complete` /
`trigger_children_committed`. -/
structure MappedResult where
  state : IndexTaskState
  reports_mapped : Bool
  trigger_children_completed : Bool
  trigger_children_commit : Bool
deriving Repr

/-- `IndexTask::return_slice_mapped`: adds the slice's points to
`total_points` and `mapped_points`, accumulates `1/denom` into
`slice_fraction`, and fires the mapped (and possibly complete/commit)
notifications exactly when the fraction has become whole. -/
def return_slice_mapped (s : IndexTaskState) (points : Nat) (denom : Int) :
    MappedResult :=
  let s1 : IndexTaskState :=
    { s with
      total_points := s.total_points + points
      mapped_points := s.mapped_points + points
      slice_fraction := s.slice_fraction + 1 / (denom : ℚ) }
  if s1.slice_fraction = 1 then
    let doComplete := decide (s1.complete_points = s1.total_points) &&
      !s1.children_complete_invoked
    let doCommit := decide (s1.committed_points = s1.total_points) &&
      !s1.children_commit_invoked
    { state :=
        { s1 with
          children_complete_invoked := s1.children_complete_invoked || doComplete
          children_commit_invoked := s1.children_commit_invoked || doCommit }
      reports_mapped := true
      trigger_children_completed := doComplete
      trigger_children_commit := doCommit }
  else
    { state := s1, reports_mapped := false,
      trigger_children_completed := false, trigger_children_commit := false }

/-- Outcome of `IndexTask::return_slice_complete`: `reports_complete` records
the `trigger_execution` path (the launch reports "complete" via
`complete_execution`). -/
structure CompleteResult where
  state : IndexTaskState
  reports_complete : Bool
  trigger_children_complete_path : Bool
deriving Repr

/-- `IndexTask::return_slice_complete`. -/
def return_slice_complete (s : IndexTaskState) (points : Nat) :
    CompleteResult :=
  let s1 : IndexTaskState :=
    { s with complete_points := s.complete_points + points }
  if s1.slice_fraction = 1 ∧ s1.complete_points = s1.total_points then
    { state := { s1 with children_complete_invoked := true }
      reports_complete := true
      trigger_children_complete_path := !s1.children_complete_invoked }
  else
    { state := s1, reports_complete := false,
      trigger_children_complete_path := false }

/-- Outcome of `IndexTask::return_slice_commit`: `reports_commit` records the
`need_trigger` path (the launch reports "commit" via
`trigger_children_committed`). -/
structure CommitResult where
  state : IndexTaskState
  reports_commit : Bool
deriving Repr

/-- `IndexTask::return_slice_commit`. -/
def return_slice_commit (s : IndexTaskState) (points : Nat) : CommitResult :=
  let s1 : IndexTaskState :=
    { s with committed_points := s.committed_points + points }
  if s1.slice_fraction = 1 ∧ s1.committed_points = s1.total_points ∧
      s1.children_commit_invoked = false then
    { state := { s1 with children_commit_invoked := true }
      reports_commit := true }
  else
    { state := s1, reports_commit := false }

/-- One slice report arriving at the owning index launch. -/
inductive SliceReport where
  | mapped (points : Nat) (denom : Int)
  | complete (points : Nat)
  | commit (points : Nat)
deriving DecidableEq, Repr

def sliceStep (s : IndexTaskState) : SliceReport → IndexTaskState
  | .mapped p d => (return_slice_mapped s p d).state
  | .complete p => (return_slice_complete s p).state
  | .commit p => (return_slice_commit s p).state

/-- Legality of one slice report: a slice covers at least one point
(`SliceTask::enumerate_points` asserts a positive volume, and an empty slice
is a fatal mapper error), its denominator is a positive product of slice
counts, and the `DEBUG_LEGION` assertions `complete_points <= total_points`
and `committed_points <= total_points` hold after the update. -/
def sliceAssert (s : IndexTaskState) : SliceReport → Bool
  | .mapped p d => decide (1 ≤ p) && decide (1 ≤ d)
  | .complete p => decide (1 ≤ p) &&
      decide (s.complete_points + p ≤ s.total_points)
  | .commit p => decide (1 ≤ p) &&
      decide (s.committed_points + p ≤ s.total_points)

def runIndex (s : IndexTaskState) : List SliceReport → IndexTaskState
  | [] => s
  | r :: l => runIndex (sliceStep s r) l

def indexLegal (s : IndexTaskState) : List SliceReport → Bool
  | [] => true
  | r :: l => sliceAssert s r && indexLegal (sliceStep s r) l

/-- Reachability invariant of the slice-report counters: `mapped_points`
always equals `total_points` (both are bumped together only in
`return_slice_mapped`, which is what the source comment "Already know that
mapped points is the same as total points" records), and each
`children_*_invoked` flag is set only once the fraction is whole with the
matching counter at `total_points`. -/
def IndexInv (s : IndexTaskState) : Prop :=
  s.mapped_points = s.total_points ∧
  (s.children_complete_invoked = true →
    1 ≤ s.slice_fraction ∧
      (s.slice_fraction = 1 → s.complete_points = s.total_points)) ∧
  (s.children_commit_invoked = true →
    1 ≤ s.slice_fraction ∧
      (s.slice_fraction = 1 → s.committed_points = s.total_points))

theorem indexInv_activate : IndexInv IndexTaskState.activate := by
  refine ⟨rfl, ?_, ?_⟩ <;> intro h <;> simp [IndexTaskState.activate] at h

theorem indexInv_step (s : IndexTaskState) (r : SliceReport)
    (hInv : IndexInv s) (h : sliceAssert s r = true) :
    IndexInv (sliceStep s r) := by
  obtain ⟨hI1, hI2, hI3⟩ := hInv
  cases r with
  | mapped p d =>
      rw [sliceAssert, Bool.and_eq_true, decide_eq_true_eq,
        decide_eq_true_eq] at h
      obtain ⟨hp, hd⟩ := h
      have hdq : (1:ℚ) ≤ (d:ℚ) := by exact_mod_cast hd
      have hpos : (0:ℚ) < 1 / (d:ℚ) :=
        div_pos one_pos (lt_of_lt_of_le one_pos hdq)
      simp only [sliceStep, return_slice_mapped]
      split
      case isTrue hw =>
        refine ⟨?_, ?_, ?_⟩
        · simp [hI1]
        · simp only []
          intro hset
          rw [Bool.or_eq_true, Bool.and_eq_true, decide_eq_true_eq] at hset
          rcases hset with hold | ⟨hcnt, _⟩
          · have := (hI2 hold).1
            exfalso; simp only at this; linarith
          · exact ⟨le_of_eq hw.symm, fun _ => hcnt⟩
        · simp only []
          intro hset
          rw [Bool.or_eq_true, Bool.and_eq_true, decide_eq_true_eq] at hset
          rcases hset with hold | ⟨hcnt, _⟩
          · have := (hI3 hold).1
            exfalso; simp only at this; linarith
          · exact ⟨le_of_eq hw.symm, fun _ => hcnt⟩
      case isFalse hw =>
        refine ⟨?_, ?_, ?_⟩
        · simp [hI1]
        · simp only []
          intro hold
          obtain ⟨hge, _⟩ := hI2 hold
          refine ⟨by linarith, fun heq => ?_⟩
          exfalso; simp only at heq; linarith
        · simp only []
          intro hold
          obtain ⟨hge, _⟩ := hI3 hold
          refine ⟨by linarith, fun heq => ?_⟩
          exfalso; simp only at heq; linarith
  | complete p =>
      rw [sliceAssert, Bool.and_eq_true, decide_eq_true_eq,
        decide_eq_true_eq] at h
      obtain ⟨hp, hle⟩ := h
      simp only [sliceStep, return_slice_complete]
      split
      case isTrue hw =>
        refine ⟨hI1, ?_, ?_⟩
        · intro _
          exact ⟨le_of_eq hw.1.symm, fun _ => hw.2⟩
        · intro hold
          exact hI3 hold
      case isFalse hw =>
        refine ⟨hI1, ?_, ?_⟩
        · intro hold
          obtain ⟨hge, himp⟩ := hI2 hold
          refine ⟨hge, fun heq => ?_⟩
          have hc := himp heq
          omega
        · intro hold
          exact hI3 hold
  | commit p =>
      rw [sliceAssert, Bool.and_eq_true, decide_eq_true_eq,
        decide_eq_true_eq] at h
      obtain ⟨hp, hle⟩ := h
      simp only [sliceStep, return_slice_commit]
      split
      case isTrue hw =>
        refine ⟨hI1, ?_, ?_⟩
        · intro hold
          exact hI2 hold
        · intro _
          exact ⟨le_of_eq hw.1.symm, fun _ => hw.2.1⟩
      case isFalse hw =>
        refine ⟨hI1, ?_, ?_⟩
        · intro hold
          exact hI2 hold
        · intro hold
          obtain ⟨hge, himp⟩ := hI3 hold
          refine ⟨hge, fun heq => ?_⟩
          have hc := himp heq
          omega

theorem indexInv_run (l : List SliceReport) :
    ∀ s, IndexInv s → indexLegal s l = true → IndexInv (runIndex s l) := by
  induction l with
  | nil => intro s hInv _; exact hInv
  | cons r l ih =>
      intro s hInv hleg
      rw [indexLegal, Bool.and_eq_true] at hleg
      exact ih _ (indexInv_step s r hInv hleg.1) hleg.2

/-- **C1.** For every index launch, in every reachable counter state,
`return_slice_mapped` reports "mapped", `return_slice_complete` reports
"complete" and `return_slice_commit` reports "commit" if and only if the
accumulated `Σ 1/denominator` over the slices that have reported equals the
rational value 1 and the corresponding per-point counter (`mapped_points`,
`complete_points`, `committed_points`) equals the launch's `total_points`. -/
theorem index_launch_reports_iff (l : List SliceReport) (s : IndexTaskState)
    (hs : s = runIndex IndexTaskState.activate l)
    (hl : indexLegal IndexTaskState.activate l = true) :
    (∀ p d, 1 ≤ p → 1 ≤ d →
      ((return_slice_mapped s p d).reports_mapped = true ↔
        ((return_slice_mapped s p d).state.slice_fraction = 1 ∧
          (return_slice_mapped s p d).state.mapped_points =
            (return_slice_mapped s p d).state.total_points))) ∧
    (∀ p, 1 ≤ p → s.complete_points + p ≤ s.total_points →
      ((return_slice_complete s p).reports_complete = true ↔
        ((return_slice_complete s p).state.slice_fraction = 1 ∧
          (return_slice_complete s p).state.complete_points =
            (return_slice_complete s p).state.total_points))) ∧
    (∀ p, 1 ≤ p →
      ((return_slice_commit s p).reports_commit = true ↔
        ((return_slice_commit s p).state.slice_fraction = 1 ∧
          (return_slice_commit s p).state.committed_points =
            (return_slice_commit s p).state.total_points))) := by
  have hInv : IndexInv s := hs ▸ indexInv_run l _ indexInv_activate hl
  obtain ⟨hI1, hI2, hI3⟩ := hInv
  refine ⟨?_, ?_, ?_⟩
  · intro p d hp hd
    simp only [return_slice_mapped]
    split
    case isTrue hw =>
      rw [one_div] at hw
      simp [hw, hI1]
    case isFalse hw =>
      rw [one_div] at hw
      simp [hw, hI1]
  · intro p hp hle
    simp only [return_slice_complete]
    split
    case isTrue hw => simp [hw.1, hw.2]
    case isFalse hw =>
      refine iff_of_false (by simp) ?_
      intro hc
      exact hw ⟨hc.1, hc.2⟩
  · intro p hp
    simp only [return_slice_commit]
    split
    case isTrue hw => simp [hw.1, hw.2.1]
    case isFalse hw =>
      refine iff_of_false (by simp) ?_
      intro hc
      by_cases hk : s.children_commit_invoked = false
      · exact hw ⟨hc.1, hc.2, hk⟩
      · have hkt : s.children_commit_invoked = true := by
          cases hb : s.children_commit_invoked
          · exact absurd hb hk
          · rfl
        obtain ⟨_, himp⟩ := hI3 hkt
        have hcm := himp hc.1
        have hcp : s.committed_points + p = s.total_points := hc.2
        omega

theorem index_launch_reports_iff_witness :
    indexLegal IndexTaskState.activate
      [SliceReport.mapped 2 1, SliceReport.complete 2] = true ∧
    ((return_slice_commit (runIndex IndexTaskState.activate
        [SliceReport.mapped 2 1, SliceReport.complete 2]) 2).reports_commit
          = true ↔
      ((return_slice_commit (runIndex IndexTaskState.activate
          [SliceReport.mapped 2 1, SliceReport.complete 2]) 2).state.slice_fraction
            = 1 ∧
        (return_slice_commit (runIndex IndexTaskState.activate
          [SliceReport.mapped 2 1, SliceReport.complete 2]) 2).state.committed_points
          = (return_slice_commit (runIndex IndexTaskState.activate
          [SliceReport.mapped 2 1, SliceReport.complete 2]) 2).state.total_points)) :=
  ⟨by norm_num [indexLegal, sliceAssert, sliceStep, runIndex,
      return_slice_mapped, return_slice_complete, IndexTaskState.activate],
    (index_launch_reports_iff [SliceReport.mapped 2 1, SliceReport.complete 2]
      _ rfl (by norm_num [indexLegal, sliceAssert, sliceStep, runIndex,
        return_slice_mapped, return_slice_complete,
        IndexTaskState.activate])).2.2 2 (by decide)⟩

/-! ## Dynamic slicing: denominators and decomposition trees -/

/-- `IndexTask::clone_as_slice_task`: a slice cloned directly from the index
launch gets `denominator = scale_denominator` (the whole launch counts as one
slice of denominator 1). -/
def IndexTask.clone_denominator (scale_denominator : Int) : Int :=
  scale_denominator

/-- `SliceTask::clone_as_slice_task`: a child slice's denominator is the
parent slice's denominator multiplied by `scale_denominator`. -/
def SliceTask.clone_denominator (denominator scale_denominator : Int) : Int :=
  denominator * scale_denominator

/-- `MultiTask::slice_index_space` passes `output.slices.size()` as
`scale_denominator` to every `clone_as_slice_task` call. -/
def slice_scale (num_slices : Nat) : Int := (num_slices : Int)

/-- A decomposition tree of a multi-point launch: a leaf is a terminal slice
carrying the sub-domain it will enumerate (`DomainPoint`s modelled as
naturals); a split node is a slice that `slice_index_space` splits into child
slices. -/
inductive SliceTree where
  | leaf (dom : List Nat) : SliceTree
  | split (children : List SliceTree) : SliceTree

mutual

/-- Structural legality: `slice_index_space` reports a fatal mapper error on
an empty slice list, so every split has at least one child. -/
def SliceTree.wf : SliceTree → Bool
  | .leaf _ => true
  | .split cs => !cs.isEmpty && sliceForestWf cs

def sliceForestWf : List SliceTree → Bool
  | [] => true
  | t :: ts => t.wf && sliceForestWf ts

end

mutual

/-- Denominators of the terminal slices of a decomposition tree whose root
slice has denominator `D`: each child of a k-way split inherits
`SliceTask.clone_denominator D (slice_scale k) = D * k` (for the root split,
`IndexTask.clone_denominator (slice_scale k) = k = 1 * k` with the launch's
implicit denominator 1). -/
def SliceTree.leafDenoms (D : Int) : SliceTree → List Int
  | .leaf _ => [D]
  | .split cs =>
      sliceForestLeafDenoms
        (SliceTask.clone_denominator D (slice_scale cs.length)) cs

def sliceForestLeafDenoms (D : Int) : List SliceTree → List Int
  | [] => []
  | t :: ts => t.leafDenoms D ++ sliceForestLeafDenoms D ts

end

mutual

theorem leafDenoms_sum (t : SliceTree) : ∀ D : Int, t.wf = true → 1 ≤ D →
    ((t.leafDenoms D).map (fun x : Int => (1:ℚ) / (x:ℚ))).sum = 1 / (D:ℚ) := by
  cases t with
  | leaf dom =>
      intro D _ _
      simp [SliceTree.leafDenoms]
  | split cs =>
      intro D hwf hD
      rw [SliceTree.wf, Bool.and_eq_true] at hwf
      have hne : cs.length ≠ 0 := by
        intro h0
        rw [List.length_eq_zero] at h0
        subst h0
        simp at hwf
      have hlen : 1 ≤ (cs.length : Int) := by
        have hpos : 0 < cs.length := Nat.pos_of_ne_zero hne
        exact_mod_cast hpos
      have hD2 : 1 ≤ SliceTask.clone_denominator D (slice_scale cs.length) := by
        rw [SliceTask.clone_denominator, slice_scale]
        calc (1:Int) ≤ D := hD
        _ ≤ D * (cs.length : Int) :=
          le_mul_of_one_le_right (le_trans zero_le_one hD) hlen
      rw [SliceTree.leafDenoms]
      rw [forestLeafDenoms_sum cs _ hwf.2 hD2]
      rw [SliceTask.clone_denominator, slice_scale]
      have hlenq : ((cs.length : Nat) : ℚ) ≠ 0 := by
        exact_mod_cast hne
      push_cast
      rw [mul_comm, ← div_div, div_self hlenq]

theorem forestLeafDenoms_sum (ts : List SliceTree) :
    ∀ D : Int, sliceForestWf ts = true → 1 ≤ D →
    ((sliceForestLeafDenoms D ts).map (fun x : Int => (1:ℚ) / (x:ℚ))).sum =
      (ts.length : ℚ) / (D:ℚ) := by
  cases ts with
  | nil =>
      intro D _ _
      simp [sliceForestLeafDenoms]
  | cons t ts =>
      intro D hwf hD
      rw [sliceForestWf, Bool.and_eq_true] at hwf
      rw [sliceForestLeafDenoms]
      rw [List.map_append, List.sum_append,
        leafDenoms_sum t D hwf.1 hD, forestLeafDenoms_sum ts D hwf.2 hD]
      rw [div_add_div_same, List.length_cons]
      push_cast
      ring

end

/-- **C2.** Every k-way split of a multi-point task or slice with denominator
D assigns every child slice denominator D·k (`SliceTask::clone_as_slice_task`
multiplies, `IndexTask::clone_as_slice_task` starts from the launch's
implicit denominator 1, and `MultiTask::slice_index_space` passes the slice
count as the scale), so for any decomposition tree of any depth the sum of
the terminal slices' reciprocals is exactly the rational value 1. -/
theorem slice_denominator_scheme_fraction_sum_one (t : SliceTree)
    (h : t.wf = true) :
    (∀ D k, SliceTask.clone_denominator D (slice_scale k) = D * (k : Int)) ∧
    (∀ k, IndexTask.clone_denominator (slice_scale k) = (k : Int)) ∧
    ((t.leafDenoms 1).map (fun x : Int => (1:ℚ) / (x:ℚ))).sum = 1 := by
  refine ⟨fun D k => rfl, fun k => rfl, ?_⟩
  have hsum := leafDenoms_sum t 1 h (le_refl 1)
  simpa using hsum

/-- A sample two-level decomposition: one slice of two points plus a recursed
slice split into two single-point slices (denominators 2, 4, 4). -/
def sampleTree : SliceTree :=
  SliceTree.split [SliceTree.leaf [0, 1],
    SliceTree.split [SliceTree.leaf [2], SliceTree.leaf [3]]]

theorem slice_denominator_scheme_fraction_sum_one_witness :
    sampleTree.wf = true ∧
    ((sampleTree.leafDenoms 1).map (fun x : Int => (1:ℚ) / (x:ℚ))).sum = 1 := by
  have hwf : sampleTree.wf = true := by
    simp [sampleTree, SliceTree.wf, sliceForestWf]
  exact ⟨hwf, (slice_denominator_scheme_fraction_sum_one sampleTree hwf).2.2⟩

/-! ## Point enumeration -/

structure PointTask where
  index_point : Nat
  stealable : Bool
  is_index_space : Bool
deriving DecidableEq, Repr

/-- `SliceTask::clone_as_point_task`: builds the point task for `point`;
`clone_task_op_from(..., false /*stealable*/, ...)` clears the stealable flag
and the clone is marked `is_index_space = true`. -/
def clone_as_point_task (point : Nat) : PointTask :=
  { index_point := point, stealable := false, is_index_space := true }

/-- `SliceTask::enumerate_points`: one `PointTask` per point of the slice's
internal domain, in enumeration order. -/
def enumerate_points (internal_domain : List Nat) : List PointTask :=
  internal_domain.map clone_as_point_task

mutual

/-- Sub-domains of the terminal slices of a decomposition tree, in
left-to-right order. -/
def SliceTree.leafDoms : SliceTree → List (List Nat)
  | .leaf dom => [dom]
  | .split cs => sliceForestLeafDoms cs

def sliceForestLeafDoms : List SliceTree → List (List Nat)
  | [] => []
  | t :: ts => t.leafDoms ++ sliceForestLeafDoms ts

end

/-- All point tasks created when each terminal slice of the tree enumerates
its sub-domain. -/
def allPointTasks (t : SliceTree) : List PointTask :=
  (t.leafDoms.map enumerate_points).flatten

theorem countP_enumerate (ds : List (List Nat)) (q : Nat) :
    ((ds.map enumerate_points).flatten).countP
      (fun pt => pt.index_point == q) = (ds.flatten).count q := by
  induction ds with
  | nil => simp
  | cons d ds ih =>
      simp only [List.map_cons, List.flatten_cons, List.countP_append,
        List.count_append, ih]
      congr 1
      rw [enumerate_points, List.countP_map]
      rfl

/-- **C3.** When the terminal slices' sub-domains partition the launch
domain (which the slicing checks validate), enumerating every terminal slice
creates exactly one Point Task executing each domain point of the launch,
regardless of the decomposition depth. -/
theorem exactly_one_point_task_per_point (t : SliceTree) (dom : List Nat)
    (hnd : dom.Nodup) (hpart : (t.leafDoms).flatten.Perm dom) :
    ∀ q, (allPointTasks t).countP (fun pt => pt.index_point == q) =
      if q ∈ dom then 1 else 0 := by
  intro q
  rw [allPointTasks, countP_enumerate, hpart.count_eq]
  by_cases hq : q ∈ dom
  · rw [if_pos hq]
    exact List.count_eq_one_of_mem hnd hq
  · rw [if_neg hq]
    exact List.count_eq_zero_of_not_mem hq

theorem exactly_one_point_task_per_point_witness :
    ([0, 1, 2, 3] : List Nat).Nodup ∧
    (sampleTree.leafDoms).flatten.Perm [0, 1, 2, 3] ∧
    (allPointTasks sampleTree).countP (fun pt => pt.index_point == 2) = 1 := by
  have hperm : (sampleTree.leafDoms).flatten.Perm [0, 1, 2, 3] := by
    simp [sampleTree, SliceTree.leafDoms, sliceForestLeafDoms]
  refine ⟨by decide, hperm, ?_⟩
  have h := exactly_one_point_task_per_point sampleTree [0, 1, 2, 3]
    (by decide) hperm 2
  simpa using h

/-! ## Stealability

`TaskOp::activate_task` clears `stealable` and `map_origin`;
`select_task_options` then sets `stealable = options.stealable` (and
`map_origin`).  `MultiTask::slice_index_space` clears `stealable` when it
decomposes, and a successful `perform_mapping` / `map_and_launch`
(`IndividualTask::perform_mapping`, `SliceTask::perform_mapping`,
`SliceTask::map_and_launch`) clears it when mapping starts.
`is_stealable()` returns `!map_origin && stealable`
(`IndividualTask::is_stealable`, `SliceTask::is_stealable`). -/

structure StealTask where
  stealable : Bool
  map_origin : Bool
  sliced : Bool
  mapped : Bool
deriving DecidableEq, Repr

/-- `TaskOp::activate_task` state with the task's origin-mapping decision
`mo` (fixed by option selection). -/
def StealTask.activate (mo : Bool) : StealTask :=
  { stealable := false, map_origin := mo, sliced := false, mapped := false }

/-- `IndividualTask::is_stealable` / `SliceTask::is_stealable`. -/
def StealTask.is_stealable (t : StealTask) : Bool :=
  !t.map_origin && t.stealable

/-- Lifecycle events that touch the stealable flag. -/
inductive StealEvent where
  | selectOptions (steal : Bool)
  | sliceIndexSpace
  | performMapping
deriving DecidableEq, Repr

def stealStep (t : StealTask) : StealEvent → StealTask
  | .selectOptions b => { t with stealable := b }
  | .sliceIndexSpace => { t with sliced := true, stealable := false }
  | .performMapping => { t with mapped := true, stealable := false }

/-- Stage-order contract: `select_task_options` runs in the pre-pipeline
stage, before any slicing (`slice_index_space` asserts `!sliced`) or
mapping. -/
def stealAssert (t : StealTask) : StealEvent → Bool
  | .selectOptions _ => !t.sliced && !t.mapped
  | .sliceIndexSpace => !t.sliced
  | .performMapping => true

def runSteal (t : StealTask) : List StealEvent → StealTask
  | [] => t
  | e :: l => runSteal (stealStep t e) l

def stealLegal (t : StealTask) : List StealEvent → Bool
  | [] => true
  | e :: l => stealAssert t e && stealLegal (stealStep t e) l

theorem runSteal_append (l1 l2 : List StealEvent) :
    ∀ t, runSteal t (l1 ++ l2) = runSteal (runSteal t l1) l2 := by
  induction l1 with
  | nil => intro t; rfl
  | cons e l1 ih => intro t; rw [List.cons_append, runSteal, runSteal, ih]

theorem stealLegal_append (l1 l2 : List StealEvent) :
    ∀ t, stealLegal t (l1 ++ l2) = true →
      stealLegal t l1 = true ∧ stealLegal (runSteal t l1) l2 = true := by
  induction l1 with
  | nil => intro t h; exact ⟨rfl, h⟩
  | cons e l1 ih =>
      intro t h
      rw [List.cons_append, stealLegal, Bool.and_eq_true] at h
      obtain ⟨h1, h2⟩ := h
      obtain ⟨h3, h4⟩ := ih _ h2
      exact ⟨by rw [stealLegal, Bool.and_eq_true]; exact ⟨h1, h3⟩, h4⟩

/-- Once decomposed or mapped, the stealable flag is false and stays false:
invariant of every legal event sequence. -/
def StealInv (t : StealTask) : Prop :=
  (t.sliced = true ∨ t.mapped = true) → t.stealable = false

theorem stealInv_run (l : List StealEvent) :
    ∀ t, StealInv t → stealLegal t l = true → StealInv (runSteal t l) := by
  induction l with
  | nil => intro t hInv _; exact hInv
  | cons e l ih =>
      intro t hInv hleg
      rw [stealLegal, Bool.and_eq_true] at hleg
      refine ih _ ?_ hleg.2
      have ha := hleg.1
      cases e with
      | selectOptions b =>
          rw [stealAssert, Bool.and_eq_true, Bool.not_eq_true',
            Bool.not_eq_true'] at ha
          intro hor
          rcases hor with hs | hm
          · exact absurd hs (by simp [stealStep, ha.1])
          · exact absurd hm (by simp [stealStep, ha.2])
      | sliceIndexSpace => intro _; simp [stealStep]
      | performMapping => intro _; simp [stealStep]

theorem runSteal_monotone_sliced_mapped (l : List StealEvent) :
    ∀ t, (t.sliced = true → (runSteal t l).sliced = true) ∧
      (t.mapped = true → (runSteal t l).mapped = true) := by
  induction l with
  | nil => intro t; exact ⟨fun h => h, fun h => h⟩
  | cons e l ih =>
      intro t
      constructor
      · intro hs
        refine (ih (stealStep t e)).1 ?_
        cases e <;> simp [stealStep, hs]
      · intro hm
        refine (ih (stealStep t e)).2 ?_
        cases e <;> simp [stealStep, hm]

theorem runSteal_map_origin (l : List StealEvent) :
    ∀ t, (runSteal t l).map_origin = t.map_origin := by
  induction l with
  | nil => intro t; rfl
  | cons e l ih =>
      intro t
      rw [runSteal, ih]
      cases e <;> simp [stealStep]

/-- **C6.** `is_stealable()` is true only strictly before the task has been
mapped or decomposed and only if it is not origin-mapped; once the task
successfully maps or is sliced, the stealable flag is permanently cleared,
so every later `is_stealable()` query returns false. -/
theorem is_stealable_only_before_mapping_permanent (mo : Bool)
    (l l' : List StealEvent)
    (h : stealLegal (StealTask.activate mo) (l ++ l') = true) :
    ((runSteal (StealTask.activate mo) l).sliced = true ∨
        (runSteal (StealTask.activate mo) l).mapped = true →
      (runSteal (StealTask.activate mo) (l ++ l')).is_stealable = false) ∧
    ((runSteal (StealTask.activate mo) l).is_stealable = true →
      mo = false ∧ (runSteal (StealTask.activate mo) l).sliced = false ∧
        (runSteal (StealTask.activate mo) l).mapped = false) := by
  obtain ⟨h1, h2⟩ := stealLegal_append l l' _ h
  have hInv0 : StealInv (StealTask.activate mo) := by
    intro hor
    rcases hor with hs | hm
    · exact absurd hs (by simp [StealTask.activate])
    · exact absurd hm (by simp [StealTask.activate])
  have hInv1 := stealInv_run l _ hInv0 h1
  have hInv2 := stealInv_run l' _ hInv1 h2
  constructor
  · intro hor
    rw [runSteal_append]
    have hsm :
        (runSteal (runSteal (StealTask.activate mo) l) l').sliced = true ∨
        (runSteal (runSteal (StealTask.activate mo) l) l').mapped = true := by
      rcases hor with hs | hm
      · exact Or.inl
          ((runSteal_monotone_sliced_mapped l' _).1 hs)
      · exact Or.inr
          ((runSteal_monotone_sliced_mapped l' _).2 hm)
    rw [StealTask.is_stealable, hInv2 hsm]
    simp
  · intro hst
    rw [StealTask.is_stealable, Bool.and_eq_true] at hst
    have hmo : mo = false := by
      have := hst.1
      rw [runSteal_map_origin] at this
      simpa [StealTask.activate] using this
    refine ⟨hmo, ?_, ?_⟩
    · cases hsl : (runSteal (StealTask.activate mo) l).sliced
      · rfl
      · exact absurd hst.2 (by simp [hInv1 (Or.inl hsl)])
    · cases hmp : (runSteal (StealTask.activate mo) l).mapped
      · rfl
      · exact absurd hst.2 (by simp [hInv1 (Or.inr hmp)])

theorem is_stealable_only_before_mapping_permanent_witness :
    stealLegal (StealTask.activate false)
      ([StealEvent.selectOptions true, StealEvent.sliceIndexSpace] ++
        [StealEvent.performMapping]) = true ∧
    (runSteal (StealTask.activate false)
      ([StealEvent.selectOptions true, StealEvent.sliceIndexSpace] ++
        [StealEvent.performMapping])).is_stealable = false := by
  have h := is_stealable_only_before_mapping_permanent false
    [StealEvent.selectOptions true, StealEvent.sliceIndexSpace]
    [StealEvent.performMapping] (by decide)
  exact ⟨by decide, h.1 (by decide)⟩

/-! ## Deterministic reduction buffering

`IndexTask::handle_future` (deterministic-reduction branch) buffers each
point's raw result in `temporary_futures`, a
`std::map<DomainPoint, std::pair<void*,size_t>>` keyed by domain point;
`IndexTask::trigger_task_complete` later folds the buffered results in map
(ascending domain-point) order.  Domain points are modelled as naturals and
the map as a key-sorted association list. -/

/-- `std::map` insertion of a key into a key-sorted association list (the
`DEBUG_LEGION` assertion in `handle_future` guarantees the key is fresh). -/
def mapInsert {α : Type} (k : Nat) (v : α) :
    List (Nat × α) → List (Nat × α)
  | [] => [(k, v)]
  | (q, w) :: rest =>
      if k < q then (k, v) :: (q, w) :: rest
      else (q, w) :: mapInsert k v rest

/-- `IndexTask::handle_future`, deterministic-reduction branch: the result is
stored keyed by its domain point; when the launch does not own the bytes
(`owner = false`) they are first copied (`legion_malloc` + `memcpy`), which
leaves the stored bytes identical to `result`. -/
def handle_future_deterministic {α : Type} (futures : List (Nat × α))
    (point : Nat) (result : α) (owner : Bool) : List (Nat × α) :=
  if owner then mapInsert point result futures
  else mapInsert point result futures

theorem handle_future_deterministic_eq {α : Type} (fs : List (Nat × α))
    (p : Nat) (r : α) (o : Bool) :
    handle_future_deterministic fs p r o = mapInsert p r fs := by
  rw [handle_future_deterministic]
  split <;> rfl

/-- Buffer a whole arrival sequence of `(point, result, owner)` triples into
the (initially empty) `temporary_futures` map. -/
def bufferFutures {α : Type} (arrivals : List (Nat × α × Bool)) :
    List (Nat × α) :=
  arrivals.foldl
    (fun fs a => handle_future_deterministic fs a.1 a.2.1 a.2.2) []

/-- `IndexTask::trigger_task_complete`, deterministic-reduction branch: all
folds happen only now, iterating `temporary_futures` in ascending
domain-point order. -/
def trigger_task_complete_fold {α β : Type} (fold_fn : β → α → β)
    (reduction_state : β) (arrivals : List (Nat × α × Bool)) : β :=
  (bufferFutures arrivals).foldl (fun st kv => fold_fn st kv.2)
    reduction_state

theorem mapInsert_perm {α : Type} (k : Nat) (v : α) :
    ∀ m : List (Nat × α), (mapInsert k v m).Perm ((k, v) :: m) := by
  intro m
  induction m with
  | nil => exact List.Perm.refl _
  | cons p rest ih =>
      obtain ⟨q, w⟩ := p
      rw [mapInsert]
      split
      · exact List.Perm.refl _
      · exact ((ih.cons (q, w)).trans (List.Perm.swap (k, v) (q, w) rest))

theorem buffer_foldl_perm {α : Type} (arrivals : List (Nat × α × Bool)) :
    ∀ fs : List (Nat × α),
      (arrivals.foldl
        (fun fs a => handle_future_deterministic fs a.1 a.2.1 a.2.2)
        fs).Perm (arrivals.map (fun a => (a.1, a.2.1)) ++ fs) := by
  induction arrivals with
  | nil => intro fs; simp
  | cons a l ih =>
      intro fs
      rw [List.foldl_cons, handle_future_deterministic_eq]
      refine (ih _).trans ?_
      refine ((List.Perm.append_left _ (mapInsert_perm a.1 a.2.1 fs)).trans ?_)
      rw [List.map_cons]
      exact List.perm_middle

theorem mapInsert_sorted {α : Type} (k : Nat) (v : α) :
    ∀ m : List (Nat × α),
      List.Pairwise (fun a b : Nat × α => a.1 < b.1) m →
      k ∉ m.map Prod.fst →
      List.Pairwise (fun a b : Nat × α => a.1 < b.1) (mapInsert k v m) := by
  intro m
  induction m with
  | nil => intro _ _; simp [mapInsert]
  | cons p rest ih =>
      obtain ⟨q, w⟩ := p
      intro hs hk
      rw [List.pairwise_cons] at hs
      rw [List.map_cons, List.mem_cons] at hk
      push_neg at hk
      rw [mapInsert]
      split
      case isTrue hlt =>
        rw [List.pairwise_cons]
        refine ⟨?_, List.pairwise_cons.mpr hs⟩
        intro b hb
        rcases List.mem_cons.mp hb with hb | hb
        · rw [hb]; exact hlt
        · exact lt_trans hlt (hs.1 b hb)
      case isFalse hlt =>
        have hqk : q < k := by
          rcases Nat.lt_or_ge k q with h | h
          · exact absurd h hlt
          · exact lt_of_le_of_ne h (Ne.symm hk.1)
        rw [List.pairwise_cons]
        refine ⟨?_, ih hs.2 hk.2⟩
        intro b hb
        have hb' := (mapInsert_perm k v rest).mem_iff.mp hb
        rcases List.mem_cons.mp hb' with hb' | hb'
        · rw [hb']; exact hqk
        · exact hs.1 b hb'

theorem buffer_foldl_sorted {α : Type} (arrivals : List (Nat × α × Bool)) :
    ∀ fs : List (Nat × α),
      List.Pairwise (fun a b : Nat × α => a.1 < b.1) fs →
      (fs.map Prod.fst ++ arrivals.map (fun a => a.1)).Nodup →
      List.Pairwise (fun a b : Nat × α => a.1 < b.1)
        (arrivals.foldl
          (fun fs a => handle_future_deterministic fs a.1 a.2.1 a.2.2) fs) := by
  induction arrivals with
  | nil => intro fs hs _; exact hs
  | cons a l ih =>
      intro fs hs hnd
      rw [List.foldl_cons, handle_future_deterministic_eq]
      have hnotin : a.1 ∉ fs.map Prod.fst := by
        intro hmem
        rw [List.nodup_append] at hnd
        exact hnd.2.2 hmem (by simp)
      refine ih _ (mapInsert_sorted a.1 a.2.1 fs hs hnotin) ?_
      have hkeys : ((mapInsert a.1 a.2.1 fs).map Prod.fst).Perm
          (a.1 :: fs.map Prod.fst) := (mapInsert_perm a.1 a.2.1 fs).map _
      have hperm : ((mapInsert a.1 a.2.1 fs).map Prod.fst ++
            l.map (fun a => a.1)).Perm
          (fs.map Prod.fst ++ (a.1 :: l.map (fun a => a.1))) := by
        refine (hkeys.append_right _).trans ?_
        exact List.perm_middle.symm
      refine hperm.symm.nodup ?_
      simpa using hnd

theorem bufferFutures_sorted {α : Type} (arrivals : List (Nat × α × Bool))
    (hnd : (arrivals.map (fun a => a.1)).Nodup) :
    List.Pairwise (fun a b : Nat × α => a.1 < b.1)
      (bufferFutures arrivals) := by
  rw [bufferFutures]
  exact buffer_foldl_sorted arrivals [] (by simp) (by simpa using hnd)

instance instKeyLtAntisymm (α : Type) :
    IsAntisymm (Nat × α) (fun a b : Nat × α => a.1 < b.1) :=
  ⟨fun _ _ h1 h2 => absurd (lt_trans h1 h2) (lt_irrefl _)⟩

theorem bufferFutures_eq_of_perm {α : Type} (a1 a2 : List (Nat × α × Bool))
    (hperm : a1.Perm a2) (hnd : (a1.map (fun x => x.1)).Nodup) :
    bufferFutures a1 = bufferFutures a2 := by
  have h1 : (bufferFutures a1).Perm (a1.map (fun a => (a.1, a.2.1))) := by
    simpa using buffer_foldl_perm a1 []
  have h2 : (bufferFutures a2).Perm (a2.map (fun a => (a.1, a.2.1))) := by
    simpa using buffer_foldl_perm a2 []
  have h12 : (bufferFutures a1).Perm (bufferFutures a2) :=
    h1.trans ((hperm.map _).trans h2.symm)
  have hnd2 : (a2.map (fun x => x.1)).Nodup := (hperm.map _).nodup hnd
  exact List.eq_of_perm_of_sorted h12 (bufferFutures_sorted a1 hnd)
    (bufferFutures_sorted a2 hnd2)

/-- **C7.** For a deterministic-reduction launch every point result is
buffered keyed by its domain point (copied first when not owned, leaving the
bytes identical) and all folds are applied only at completion, in ascending
domain-point order, so the final reduction buffer is identical no matter in
which order the point results arrived. -/
theorem deterministic_fold_order_independent {α β : Type}
    (fold_fn : β → α → β) (reduction_state : β)
    (a1 a2 : List (Nat × α × Bool)) (hperm : a1.Perm a2)
    (hnd : (a1.map (fun x => x.1)).Nodup) :
    trigger_task_complete_fold fold_fn reduction_state a1 =
      trigger_task_complete_fold fold_fn reduction_state a2 ∧
    List.Pairwise (fun a b : Nat × α => a.1 < b.1) (bufferFutures a1) := by
  refine ⟨?_, bufferFutures_sorted a1 hnd⟩
  rw [trigger_task_complete_fold, trigger_task_complete_fold,
    bufferFutures_eq_of_perm a1 a2 hperm hnd]

theorem deterministic_fold_order_independent_witness :
    ([(3, 30, true), (1, 11, false), (0, 5, true), (2, 22, true)] :
        List (Nat × Nat × Bool)).Perm
      [(0, 5, true), (1, 11, false), (2, 22, true), (3, 30, true)] ∧
    trigger_task_complete_fold (fun (b : List Nat) (a : Nat) => b ++ [a]) []
        [(3, 30, true), (1, 11, false), (0, 5, true), (2, 22, true)] =
      trigger_task_complete_fold (fun (b : List Nat) (a : Nat) => b ++ [a]) []
        [(0, 5, true), (1, 11, false), (2, 22, true), (3, 30, true)] := by
  have h := deterministic_fold_order_independent
    (fun (b : List Nat) (a : Nat) => b ++ [a]) []
    [(3, 30, true), (1, 11, false), (0, 5, true), (2, 22, true)]
    [(0, 5, true), (1, 11, false), (2, 22, true), (3, 30, true)]
    (by decide) (by decide)
  exact ⟨by decide, h.1⟩

/-! ## Resource ledger (ResourceTracker)

Resource keys (`LogicalRegion`, `FieldSpace`, `IndexSpace`,
`IndexPartition`) are modelled as naturals and a field key
(`FieldSpace`, `FieldID`) as a pair.  The created-region/field maps carry
the local/non-local bool of the source; sets are association-free lists.
Container contents are modelled in insertion order — only key sets and
multiplicities matter to the claims. -/

structure ResourceTracker where
  created_regions : List (Nat × Bool)
  deleted_regions : List Nat
  created_fields : List ((Nat × Nat) × Bool)
  deleted_fields : List (Nat × Nat)
  created_field_spaces : List Nat
  deleted_field_spaces : List Nat
  created_index_spaces : List Nat
  deleted_index_spaces : List Nat
  created_index_partitions : List Nat
  deleted_index_partitions : List Nat
deriving DecidableEq, Repr

def ResourceTracker.empty : ResourceTracker :=
  ⟨[], [], [], [], [], [], [], [], [], []⟩

/-- Insertion loop shared by the created-resource `register_*_creations`
functions (`SliceTask::register_region_creations` and friends): each incoming
key is asserted fresh (`DEBUG_LEGION` assert that `find` returns `end`)
before insertion; a duplicate key is a contract violation (`none`). -/
def registerCreatedMap {κ : Type} [DecidableEq κ]
    (tracker : List (κ × Bool)) : List (κ × Bool) → Option (List (κ × Bool))
  | [] => some tracker
  | (k, b) :: rest =>
      if k ∈ tracker.map Prod.fst then none
      else registerCreatedMap (tracker ++ [(k, b)]) rest

/-- Same loop for the `std::set`-backed created categories
(`register_field_space_creations`, `register_index_space_creations`,
`register_index_partition_creations`). -/
def registerCreatedSet {κ : Type} [DecidableEq κ]
    (tracker : List κ) : List κ → Option (List κ)
  | [] => some tracker
  | k :: rest =>
      if k ∈ tracker then none
      else registerCreatedSet (tracker ++ [k]) rest

/-- Insertion loop shared by the deleted-resource `register_*_deletions`
functions: a plain `std::set::insert` with no duplicate check — an
already-present key leaves the set unchanged. -/
def registerDeletedSet {κ : Type} [DecidableEq κ]
    (tracker : List κ) : List κ → List κ
  | [] => tracker
  | k :: rest =>
      if k ∈ tracker then registerDeletedSet tracker rest
      else registerDeletedSet (tracker ++ [k]) rest

/-- `SliceTask::register_region_creations`. -/
def SliceTask.register_region_creations (t : ResourceTracker)
    (regs : List (Nat × Bool)) : Option ResourceTracker :=
  (registerCreatedMap t.created_regions regs).map
    fun cr => { t with created_regions := cr }

/-- `SliceTask::register_region_deletions`. -/
def SliceTask.register_region_deletions (t : ResourceTracker)
    (regs : List Nat) : ResourceTracker :=
  { t with deleted_regions := registerDeletedSet t.deleted_regions regs }

/-- `SliceTask::register_field_creations`. -/
def SliceTask.register_field_creations (t : ResourceTracker)
    (fields : List ((Nat × Nat) × Bool)) : Option ResourceTracker :=
  (registerCreatedMap t.created_fields fields).map
    fun cf => { t with created_fields := cf }

/-- `SliceTask::register_field_deletions`. -/
def SliceTask.register_field_deletions (t : ResourceTracker)
    (fields : List (Nat × Nat)) : ResourceTracker :=
  { t with deleted_fields := registerDeletedSet t.deleted_fields fields }

/-- `SliceTask::register_field_space_creations`. -/
def SliceTask.register_field_space_creations (t : ResourceTracker)
    (spaces : List Nat) : Option ResourceTracker :=
  (registerCreatedSet t.created_field_spaces spaces).map
    fun cs => { t with created_field_spaces := cs }

/-- `SliceTask::register_field_space_deletions`. -/
def SliceTask.register_field_space_deletions (t : ResourceTracker)
    (spaces : List Nat) : ResourceTracker :=
  { t with deleted_field_spaces :=
      registerDeletedSet t.deleted_field_spaces spaces }

/-- `SliceTask::register_index_space_creations`. -/
def SliceTask.register_index_space_creations (t : ResourceTracker)
    (spaces : List Nat) : Option ResourceTracker :=
  (registerCreatedSet t.created_index_spaces spaces).map
    fun cs => { t with created_index_spaces := cs }

/-- `SliceTask::register_index_space_deletions`. -/
def SliceTask.register_index_space_deletions (t : ResourceTracker)
    (spaces : List Nat) : ResourceTracker :=
  { t with deleted_index_spaces :=
      registerDeletedSet t.deleted_index_spaces spaces }

/-- `SliceTask::register_index_partition_creations`. -/
def SliceTask.register_index_partition_creations (t : ResourceTracker)
    (parts : List Nat) : Option ResourceTracker :=
  (registerCreatedSet t.created_index_partitions parts).map
    fun cp => { t with created_index_partitions := cp }

/-- `SliceTask::register_index_partition_deletions`. -/
def SliceTask.register_index_partition_deletions (t : ResourceTracker)
    (parts : List Nat) : ResourceTracker :=
  { t with deleted_index_partitions :=
      registerDeletedSet t.deleted_index_partitions parts }

/-- `ResourceTracker::return_privilege_state`: merge this ledger upward into
`target`, category by category, skipping empty categories. -/
def ResourceTracker.return_privilege_state (src target : ResourceTracker) :
    Option ResourceTracker := do
  let t1 ← if src.created_regions.isEmpty then some target
    else SliceTask.register_region_creations target src.created_regions
  let t2 := if src.deleted_regions.isEmpty then t1
    else SliceTask.register_region_deletions t1 src.deleted_regions
  let t3 ← if src.created_fields.isEmpty then some t2
    else SliceTask.register_field_creations t2 src.created_fields
  let t4 := if src.deleted_fields.isEmpty then t3
    else SliceTask.register_field_deletions t3 src.deleted_fields
  let t5 ← if src.created_field_spaces.isEmpty then some t4
    else SliceTask.register_field_space_creations t4 src.created_field_spaces
  let t6 := if src.deleted_field_spaces.isEmpty then t5
    else SliceTask.register_field_space_deletions t5 src.deleted_field_spaces
  let t7 ← if src.created_index_spaces.isEmpty then some t6
    else SliceTask.register_index_space_creations t6 src.created_index_spaces
  let t8 := if src.deleted_index_spaces.isEmpty then t7
    else SliceTask.register_index_space_deletions t7 src.deleted_index_spaces
  let t9 ← if src.created_index_partitions.isEmpty then some t8
    else (SliceTask.register_index_partition_creations t8
      src.created_index_partitions)
  let t10 := if src.deleted_index_partitions.isEmpty then t9
    else (SliceTask.register_index_partition_deletions t9
      src.deleted_index_partitions)
  some t10

/-- Merge a list of child ledgers upward into `target`, in completion
order. -/
def mergeAll (ledgers : List ResourceTracker) (target : ResourceTracker) :
    Option ResourceTracker :=
  ledgers.foldlM (fun t l => ResourceTracker.return_privilege_state l t)
    target

theorem registerCreatedMap_eq {κ : Type} [DecidableEq κ]
    (inc : List (κ × Bool)) :
    ∀ tr : List (κ × Bool), (inc.map Prod.fst).Nodup →
      (∀ k ∈ inc.map Prod.fst, k ∉ tr.map Prod.fst) →
      registerCreatedMap tr inc = some (tr ++ inc) := by
  induction inc with
  | nil => intro tr _ _; simp [registerCreatedMap]
  | cons p rest ih =>
      obtain ⟨k, b⟩ := p
      intro tr hnd hdis
      rw [List.map_cons, List.nodup_cons] at hnd
      rw [registerCreatedMap, if_neg (hdis k (by simp))]
      rw [ih _ hnd.2 ?fresh]
      · rw [List.append_assoc]
        rfl
      case fresh =>
        intro q hq
        rw [List.map_append, List.mem_append]
        push_neg
        refine ⟨hdis q (by simp [hq]), ?_⟩
        simp only [List.map_cons, List.map_nil, List.mem_singleton]
        intro hqk
        exact hnd.1 (hqk ▸ hq)

theorem registerCreatedSet_eq {κ : Type} [DecidableEq κ] (inc : List κ) :
    ∀ tr : List κ, inc.Nodup → (∀ k ∈ inc, k ∉ tr) →
      registerCreatedSet tr inc = some (tr ++ inc) := by
  induction inc with
  | nil => intro tr _ _; simp [registerCreatedSet]
  | cons k rest ih =>
      intro tr hnd hdis
      rw [List.nodup_cons] at hnd
      rw [registerCreatedSet, if_neg (hdis k (by simp))]
      rw [ih _ hnd.2 ?fresh]
      · rw [List.append_assoc]
        rfl
      case fresh =>
        intro q hq
        rw [List.mem_append]
        push_neg
        refine ⟨hdis q (by simp [hq]), ?_⟩
        rw [List.mem_singleton]
        intro hqk
        exact hnd.1 (hqk ▸ hq)

theorem guard_region_creations (t : ResourceTracker)
    (regs : List (Nat × Bool)) :
    (if regs.isEmpty then some t
      else SliceTask.register_region_creations t regs) =
      SliceTask.register_region_creations t regs := by
  cases regs with
  | nil => cases t; simp [SliceTask.register_region_creations, registerCreatedMap]
  | cons a l => simp

theorem guard_region_deletions (t : ResourceTracker) (regs : List Nat) :
    (if regs.isEmpty then t
      else SliceTask.register_region_deletions t regs) =
      SliceTask.register_region_deletions t regs := by
  cases regs with
  | nil => cases t; simp [SliceTask.register_region_deletions, registerDeletedSet]
  | cons a l => simp

theorem guard_field_creations (t : ResourceTracker)
    (fields : List ((Nat × Nat) × Bool)) :
    (if fields.isEmpty then some t
      else SliceTask.register_field_creations t fields) =
      SliceTask.register_field_creations t fields := by
  cases fields with
  | nil => cases t; simp [SliceTask.register_field_creations, registerCreatedMap]
  | cons a l => simp

theorem guard_field_deletions (t : ResourceTracker)
    (fields : List (Nat × Nat)) :
    (if fields.isEmpty then t
      else SliceTask.register_field_deletions t fields) =
      SliceTask.register_field_deletions t fields := by
  cases fields with
  | nil => cases t; simp [SliceTask.register_field_deletions, registerDeletedSet]
  | cons a l => simp

theorem guard_field_space_creations (t : ResourceTracker)
    (spaces : List Nat) :
    (if spaces.isEmpty then some t
      else SliceTask.register_field_space_creations t spaces) =
      SliceTask.register_field_space_creations t spaces := by
  cases spaces with
  | nil =>
      cases t
      simp [SliceTask.register_field_space_creations, registerCreatedSet]
  | cons a l => simp

theorem guard_field_space_deletions (t : ResourceTracker)
    (spaces : List Nat) :
    (if spaces.isEmpty then t
      else SliceTask.register_field_space_deletions t spaces) =
      SliceTask.register_field_space_deletions t spaces := by
  cases spaces with
  | nil =>
      cases t
      simp [SliceTask.register_field_space_deletions, registerDeletedSet]
  | cons a l => simp

theorem guard_index_space_creations (t : ResourceTracker)
    (spaces : List Nat) :
    (if spaces.isEmpty then some t
      else SliceTask.register_index_space_creations t spaces) =
      SliceTask.register_index_space_creations t spaces := by
  cases spaces with
  | nil =>
      cases t
      simp [SliceTask.register_index_space_creations, registerCreatedSet]
  | cons a l => simp

theorem guard_index_space_deletions (t : ResourceTracker)
    (spaces : List Nat) :
    (if spaces.isEmpty then t
      else SliceTask.register_index_space_deletions t spaces) =
      SliceTask.register_index_space_deletions t spaces := by
  cases spaces with
  | nil =>
      cases t
      simp [SliceTask.register_index_space_deletions, registerDeletedSet]
  | cons a l => simp

theorem guard_index_partition_creations (t : ResourceTracker)
    (parts : List Nat) :
    (if parts.isEmpty then some t
      else SliceTask.register_index_partition_creations t parts) =
      SliceTask.register_index_partition_creations t parts := by
  cases parts with
  | nil =>
      cases t
      simp [SliceTask.register_index_partition_creations, registerCreatedSet]
  | cons a l => simp

theorem guard_index_partition_deletions (t : ResourceTracker)
    (parts : List Nat) :
    (if parts.isEmpty then t
      else SliceTask.register_index_partition_deletions t parts) =
      SliceTask.register_index_partition_deletions t parts := by
  cases parts with
  | nil =>
      cases t
      simp [SliceTask.register_index_partition_deletions, registerDeletedSet]
  | cons a l => simp

/-- Duplicate-freedom contract of a single upward merge: within each created
category, the incoming keys are distinct and none is already present in the
target ledger. -/
def freshCreated (src target : ResourceTracker) : Prop :=
  ((src.created_regions.map Prod.fst).Nodup ∧
    ∀ k ∈ src.created_regions.map Prod.fst,
      k ∉ target.created_regions.map Prod.fst) ∧
  ((src.created_fields.map Prod.fst).Nodup ∧
    ∀ k ∈ src.created_fields.map Prod.fst,
      k ∉ target.created_fields.map Prod.fst) ∧
  (src.created_field_spaces.Nodup ∧
    ∀ k ∈ src.created_field_spaces, k ∉ target.created_field_spaces) ∧
  (src.created_index_spaces.Nodup ∧
    ∀ k ∈ src.created_index_spaces, k ∉ target.created_index_spaces) ∧
  (src.created_index_partitions.Nodup ∧
    ∀ k ∈ src.created_index_partitions, k ∉ target.created_index_partitions)

set_option maxHeartbeats 2000000 in
theorem return_privilege_state_eq (src target : ResourceTracker)
    (h : freshCreated src target) :
    ResourceTracker.return_privilege_state src target = some
      { created_regions := target.created_regions ++ src.created_regions
        deleted_regions :=
          registerDeletedSet target.deleted_regions src.deleted_regions
        created_fields := target.created_fields ++ src.created_fields
        deleted_fields :=
          registerDeletedSet target.deleted_fields src.deleted_fields
        created_field_spaces :=
          target.created_field_spaces ++ src.created_field_spaces
        deleted_field_spaces :=
          registerDeletedSet target.deleted_field_spaces
            src.deleted_field_spaces
        created_index_spaces :=
          target.created_index_spaces ++ src.created_index_spaces
        deleted_index_spaces :=
          registerDeletedSet target.deleted_index_spaces
            src.deleted_index_spaces
        created_index_partitions :=
          target.created_index_partitions ++ src.created_index_partitions
        deleted_index_partitions :=
          registerDeletedSet target.deleted_index_partitions
            src.deleted_index_partitions } := by
  obtain ⟨h1, h2, h3, h4, h5⟩ := h
  rw [ResourceTracker.return_privilege_state]
  simp only [guard_region_creations, guard_region_deletions,
    guard_field_creations, guard_field_deletions,
    guard_field_space_creations, guard_field_space_deletions,
    guard_index_space_creations, guard_index_space_deletions,
    guard_index_partition_creations, guard_index_partition_deletions]
  simp only [SliceTask.register_region_creations,
    SliceTask.register_region_deletions, SliceTask.register_field_creations,
    SliceTask.register_field_deletions,
    SliceTask.register_field_space_creations,
    SliceTask.register_field_space_deletions,
    SliceTask.register_index_space_creations,
    SliceTask.register_index_space_deletions,
    SliceTask.register_index_partition_creations,
    SliceTask.register_index_partition_deletions]
  rw [registerCreatedMap_eq _ _ h1.1 h1.2]
  simp only [Option.map_some', Option.bind_eq_bind, Option.some_bind]
  rw [registerCreatedMap_eq _ _ h2.1 h2.2]
  simp only [Option.map_some', Option.bind_eq_bind, Option.some_bind]
  rw [registerCreatedSet_eq _ _ h3.1 h3.2]
  simp only [Option.map_some', Option.bind_eq_bind, Option.some_bind]
  rw [registerCreatedSet_eq _ _ h4.1 h4.2]
  simp only [Option.map_some', Option.bind_eq_bind, Option.some_bind]
  rw [registerCreatedSet_eq _ _ h5.1 h5.2]
  simp only [Option.map_some', Option.bind_eq_bind, Option.some_bind]
  split_ifs <;> simp_all only [List.isEmpty_iff, List.append_nil]

theorem nodup_merge_step {κ : Type} (A B C : List κ)
    (h : (A ++ (B ++ C)).Nodup) :
    B.Nodup ∧ (∀ k ∈ B, k ∉ A) ∧ ((A ++ B) ++ C).Nodup := by
  refine ⟨h.of_append_right.of_append_left, ?_, ?_⟩
  · intro k hkB hkA
    exact (List.disjoint_of_nodup_append h) hkA
      (List.mem_append.mpr (Or.inl hkB))
  · rw [List.append_assoc]
    exact h

/-- Duplicate-freedom of a whole upward merge sequence: for each created
category, the target's keys and all the child ledgers' keys are jointly
distinct. -/
def createdOkFrom (target : ResourceTracker)
    (ledgers : List ResourceTracker) : Prop :=
  (target.created_regions.map Prod.fst ++
    (ledgers.map (fun t => t.created_regions.map Prod.fst)).flatten).Nodup ∧
  (target.created_fields.map Prod.fst ++
    (ledgers.map (fun t => t.created_fields.map Prod.fst)).flatten).Nodup ∧
  (target.created_field_spaces ++
    (ledgers.map (fun t => t.created_field_spaces)).flatten).Nodup ∧
  (target.created_index_spaces ++
    (ledgers.map (fun t => t.created_index_spaces)).flatten).Nodup ∧
  (target.created_index_partitions ++
    (ledgers.map (fun t => t.created_index_partitions)).flatten).Nodup

theorem mergeAll_eq (ledgers : List ResourceTracker) :
    ∀ target, createdOkFrom target ledgers →
      ∃ r, mergeAll ledgers target = some r ∧
        r.created_regions = target.created_regions ++
          (ledgers.map (fun t => t.created_regions)).flatten ∧
        r.created_fields = target.created_fields ++
          (ledgers.map (fun t => t.created_fields)).flatten ∧
        r.created_field_spaces = target.created_field_spaces ++
          (ledgers.map (fun t => t.created_field_spaces)).flatten ∧
        r.created_index_spaces = target.created_index_spaces ++
          (ledgers.map (fun t => t.created_index_spaces)).flatten ∧
        r.created_index_partitions = target.created_index_partitions ++
          (ledgers.map (fun t => t.created_index_partitions)).flatten := by
  induction ledgers with
  | nil =>
      intro target _
      exact ⟨target, rfl, by simp, by simp, by simp, by simp, by simp⟩
  | cons l ls ih =>
      intro target hok
      obtain ⟨k1, k2, k3, k4, k5⟩ := hok
      rw [List.map_cons, List.flatten_cons] at k1 k2 k3 k4 k5
      obtain ⟨b1, d1, a1⟩ := nodup_merge_step _ _ _ k1
      obtain ⟨b2, d2, a2⟩ := nodup_merge_step _ _ _ k2
      obtain ⟨b3, d3, a3⟩ := nodup_merge_step _ _ _ k3
      obtain ⟨b4, d4, a4⟩ := nodup_merge_step _ _ _ k4
      obtain ⟨b5, d5, a5⟩ := nodup_merge_step _ _ _ k5
      have hm := return_privilege_state_eq l target
        ⟨⟨b1, d1⟩, ⟨b2, d2⟩, ⟨b3, d3⟩, ⟨b4, d4⟩, ⟨b5, d5⟩⟩
      have hok1 : createdOkFrom
          { created_regions := target.created_regions ++ l.created_regions
            deleted_regions :=
              registerDeletedSet target.deleted_regions l.deleted_regions
            created_fields := target.created_fields ++ l.created_fields
            deleted_fields :=
              registerDeletedSet target.deleted_fields l.deleted_fields
            created_field_spaces :=
              target.created_field_spaces ++ l.created_field_spaces
            deleted_field_spaces :=
              registerDeletedSet target.deleted_field_spaces
                l.deleted_field_spaces
            created_index_spaces :=
              target.created_index_spaces ++ l.created_index_spaces
            deleted_index_spaces :=
              registerDeletedSet target.deleted_index_spaces
                l.deleted_index_spaces
            created_index_partitions :=
              target.created_index_partitions ++ l.created_index_partitions
            deleted_index_partitions :=
              registerDeletedSet target.deleted_index_partitions
                l.deleted_index_partitions } ls := by
        refine ⟨?_, ?_, ?_, ?_, ?_⟩ <;>
          simp only [List.map_append] <;> assumption
      obtain ⟨r, hr, e1, e2, e3, e4, e5⟩ := ih _ hok1
      refine ⟨r, ?_, ?_, ?_, ?_, ?_, ?_⟩
      · rw [mergeAll, List.foldlM_cons, hm]
        rw [mergeAll] at hr
        simpa using hr
      · rw [e1]
        simp [List.append_assoc]
      · rw [e2]
        simp [List.append_assoc]
      · rw [e3]
        simp [List.append_assoc]
      · rw [e4]
        simp [List.append_assoc]
      · rw [e5]
        simp [List.append_assoc]

theorem flatten_map_flatten {α β : Type} (f : α → List β)
    (groups : List (List α)) :
    ((groups.map (fun g => (g.map f).flatten)).flatten) =
      ((groups.flatten.map f).flatten) := by
  induction groups with
  | nil => simp
  | cons g gs ih => simp [ih]

theorem flatten_keys_transport {α β γ : Type} (created : α → List β)
    (key : β → γ) (slices : List α) (groups : List (List α))
    (e : slices.map created = groups.map (fun g => (g.map created).flatten)) :
    (slices.map (fun t => (created t).map key)).flatten =
      (groups.flatten.map (fun t => (created t).map key)).flatten := by
  have h1 : slices.map (fun t => (created t).map key) =
      (slices.map created).map (List.map key) := by
    rw [List.map_map]
    rfl
  rw [h1, e, ← flatten_map_flatten (fun t => (created t).map key) groups]
  congr 1
  rw [List.map_map]
  apply List.map_congr_left
  intro g _
  simp [List.map_flatten, List.map_map, Function.comp_def]

theorem mergeGroups_eq (groups : List (List ResourceTracker)) :
    createdOkFrom ResourceTracker.empty groups.flatten →
      ∃ slices,
        groups.mapM (fun g => mergeAll g ResourceTracker.empty) =
          some slices ∧
        slices.map (fun t => t.created_regions) =
          groups.map (fun g => (g.map (fun t => t.created_regions)).flatten) ∧
        slices.map (fun t => t.created_fields) =
          groups.map (fun g => (g.map (fun t => t.created_fields)).flatten) ∧
        slices.map (fun t => t.created_field_spaces) =
          groups.map
            (fun g => (g.map (fun t => t.created_field_spaces)).flatten) ∧
        slices.map (fun t => t.created_index_spaces) =
          groups.map
            (fun g => (g.map (fun t => t.created_index_spaces)).flatten) ∧
        slices.map (fun t => t.created_index_partitions) =
          groups.map
            (fun g => (g.map (fun t => t.created_index_partitions)).flatten)
    := by
  induction groups with
  | nil => intro _; exact ⟨[], rfl, rfl, rfl, rfl, rfl, rfl⟩
  | cons g gs ih =>
      intro hok
      obtain ⟨k1, k2, k3, k4, k5⟩ := hok
      simp only [ResourceTracker.empty, List.map_nil, List.nil_append,
        List.flatten_cons, List.map_append, List.flatten_append] at k1 k2 k3 k4 k5
      have hokg : createdOkFrom ResourceTracker.empty g := by
        refine ⟨?_, ?_, ?_, ?_, ?_⟩ <;>
          simp only [ResourceTracker.empty, List.map_nil, List.nil_append] <;>
          first
          | exact k1.of_append_left
          | exact k2.of_append_left
          | exact k3.of_append_left
          | exact k4.of_append_left
          | exact k5.of_append_left
      obtain ⟨sg, hsg, e1, e2, e3, e4, e5⟩ := mergeAll_eq g _ hokg
      have hokgs : createdOkFrom ResourceTracker.empty gs.flatten := by
        refine ⟨?_, ?_, ?_, ?_, ?_⟩ <;>
          simp only [ResourceTracker.empty, List.map_nil, List.nil_append] <;>
          first
          | exact k1.of_append_right
          | exact k2.of_append_right
          | exact k3.of_append_right
          | exact k4.of_append_right
          | exact k5.of_append_right
      obtain ⟨rest, hrest, f1, f2, f3, f4, f5⟩ := ih hokgs
      refine ⟨sg :: rest, ?_, ?_, ?_, ?_, ?_, ?_⟩
      · rw [List.mapM_cons, hsg, hrest]
        rfl
      all_goals
        simp only [List.map_cons]
        first
        | rw [f1, e1]; simp [ResourceTracker.empty]
        | rw [f2, e2]; simp [ResourceTracker.empty]
        | rw [f3, e3]; simp [ResourceTracker.empty]
        | rw [f4, e4]; simp [ResourceTracker.empty]
        | rw [f5, e5]; simp [ResourceTracker.empty]

/-- **C9.** Merging per-point ledgers upward into a Slice and then into the
Index launch is an additive union that never loses an entry; a duplicate
created key arriving in a merge is a contract violation (`none`), and under
the disjointness contract the merged ledger's created-region entries are
exactly the concatenation of all the points' entries with no duplicate key,
for every grouping and completion order of the points. -/
theorem resource_ledger_merge_union_no_duplicates
    (groups : List (List ResourceTracker))
    (h : createdOkFrom ResourceTracker.empty groups.flatten) :
    (∀ (t : ResourceTracker) (k : Nat) (b : Bool) (rest : List (Nat × Bool)),
      k ∈ t.created_regions.map Prod.fst →
      SliceTask.register_region_creations t ((k, b) :: rest) = none) ∧
    ∃ slices index,
      groups.mapM (fun g => mergeAll g ResourceTracker.empty) =
        some slices ∧
      mergeAll slices ResourceTracker.empty = some index ∧
      index.created_regions =
        (groups.flatten.map (fun t => t.created_regions)).flatten ∧
      (index.created_regions.map Prod.fst).Nodup := by
  constructor
  · intro t k b rest hk
    rw [SliceTask.register_region_creations, registerCreatedMap, if_pos hk]
    rfl
  obtain ⟨slices, hslices, e1, e2, e3, e4, e5⟩ := mergeGroups_eq groups h
  obtain ⟨hr1, hr2, hr3, hr4, hr5⟩ := h
  have hok2 : createdOkFrom ResourceTracker.empty slices := by
    refine ⟨?_, ?_, ?_, ?_, ?_⟩ <;>
      simp only [ResourceTracker.empty, List.map_nil, List.nil_append]
    · rw [flatten_keys_transport (fun t => t.created_regions) Prod.fst
        slices groups e1]
      simpa [ResourceTracker.empty] using hr1
    · rw [flatten_keys_transport (fun t => t.created_fields) Prod.fst
        slices groups e2]
      simpa [ResourceTracker.empty] using hr2
    · rw [e3, flatten_map_flatten]
      simpa [ResourceTracker.empty] using hr3
    · rw [e4, flatten_map_flatten]
      simpa [ResourceTracker.empty] using hr4
    · rw [e5, flatten_map_flatten]
      simpa [ResourceTracker.empty] using hr5
  obtain ⟨index, hindex, i1, i2, i3, i4, i5⟩ := mergeAll_eq slices _ hok2
  have hcr : index.created_regions =
      (groups.flatten.map (fun t => t.created_regions)).flatten := by
    rw [i1]
    simp only [ResourceTracker.empty, List.nil_append]
    rw [e1, flatten_map_flatten]
  refine ⟨slices, index, hslices, hindex, hcr, ?_⟩
  rw [hcr, List.map_flatten, List.map_map]
  simpa [Function.comp, ResourceTracker.empty] using hr1

theorem resource_ledger_merge_union_no_duplicates_witness :
    createdOkFrom ResourceTracker.empty
      ([[{ ResourceTracker.empty with created_regions := [(1, true)] },
          { ResourceTracker.empty with created_regions := [(2, false)] }],
        [{ ResourceTracker.empty with created_regions := [(3, true)] }]] :
          List (List ResourceTracker)).flatten ∧
    ∃ slices index,
      ([[{ ResourceTracker.empty with created_regions := [(1, true)] },
          { ResourceTracker.empty with created_regions := [(2, false)] }],
        [{ ResourceTracker.empty with created_regions := [(3, true)] }]] :
          List (List ResourceTracker)).mapM
        (fun g => mergeAll g ResourceTracker.empty) = some slices ∧
      mergeAll slices ResourceTracker.empty = some index ∧
      index.created_regions =
        ((([[{ ResourceTracker.empty with created_regions := [(1, true)] },
            { ResourceTracker.empty with created_regions := [(2, false)] }],
          [{ ResourceTracker.empty with created_regions := [(3, true)] }]] :
            List (List ResourceTracker)).flatten).map
          (fun t => t.created_regions)).flatten ∧
      (index.created_regions.map Prod.fst).Nodup :=
  ⟨⟨by decide, by decide, by decide, by decide, by decide⟩,
    (resource_ledger_merge_union_no_duplicates
      [[{ ResourceTracker.empty with created_regions := [(1, true)] },
        { ResourceTracker.empty with created_regions := [(2, false)] }],
       [{ ResourceTracker.empty with created_regions := [(3, true)] }]]
      ⟨by decide, by decide, by decide, by decide, by decide⟩).2⟩

theorem registerDeletedSet_mem {κ : Type} [DecidableEq κ] (inc : List κ) :
    ∀ (tr : List κ) (k : κ),
      k ∈ registerDeletedSet tr inc ↔ (k ∈ tr ∨ k ∈ inc) := by
  induction inc with
  | nil => intro tr k; simp [registerDeletedSet]
  | cons a rest ih =>
      intro tr k
      by_cases ha : a ∈ tr
      · rw [registerDeletedSet, if_pos ha, ih]
        constructor
        · rintro (h | h)
          · exact Or.inl h
          · exact Or.inr (List.mem_cons.mpr (Or.inr h))
        · rintro (h | h)
          · exact Or.inl h
          · rcases List.mem_cons.mp h with h | h
            · exact Or.inl (h ▸ ha)
            · exact Or.inr h
      · rw [registerDeletedSet, if_neg ha, ih]
        simp [List.mem_append, or_assoc]

theorem registerDeletedSet_nodup {κ : Type} [DecidableEq κ] (inc : List κ) :
    ∀ tr : List κ, tr.Nodup → (registerDeletedSet tr inc).Nodup := by
  induction inc with
  | nil => intro tr h; exact h
  | cons a rest ih =>
      intro tr h
      by_cases ha : a ∈ tr
      · rw [registerDeletedSet, if_pos ha]
        exact ih tr h
      · rw [registerDeletedSet, if_neg ha]
        refine ih _ ?_
        rw [List.nodup_append]
        refine ⟨h, List.nodup_singleton a, ?_⟩
        intro x hx hxa
        rw [List.mem_singleton] at hxa
        exact ha (hxa ▸ hx)

theorem registerDeletedSet_subset_noop {κ : Type} [DecidableEq κ]
    (inc : List κ) :
    ∀ tr : List κ, (∀ k ∈ inc, k ∈ tr) →
      registerDeletedSet tr inc = tr := by
  induction inc with
  | nil => intro tr _; rfl
  | cons a rest ih =>
      intro tr h
      rw [registerDeletedSet, if_pos (h a (by simp))]
      exact ih tr (fun k hk => h k (by simp [hk]))

theorem registerDeletedSet_idem {κ : Type} [DecidableEq κ]
    (tr inc : List κ) :
    registerDeletedSet (registerDeletedSet tr inc) inc =
      registerDeletedSet tr inc :=
  registerDeletedSet_subset_noop inc _
    (fun k hk => (registerDeletedSet_mem inc tr k).mpr (Or.inr hk))

/-- **C10.** Registering deleted resources during an upward ledger merge is
idempotent: deleted keys go into a set with no duplicate check, so the same
deleted region or field key arriving from several child ledgers is tolerated
and yields exactly one entry (the set stays duplicate-free and contains
exactly the union) — unlike created keys, whose duplicate registration is a
contract violation. -/
theorem deleted_registration_idempotent :
    (∀ (t : ResourceTracker) (regs : List Nat),
      SliceTask.register_region_deletions
          (SliceTask.register_region_deletions t regs) regs =
        SliceTask.register_region_deletions t regs) ∧
    (∀ (t : ResourceTracker) (regs : List Nat), t.deleted_regions.Nodup →
      (SliceTask.register_region_deletions t regs).deleted_regions.Nodup ∧
      ∀ k, k ∈ (SliceTask.register_region_deletions t regs).deleted_regions
        ↔ (k ∈ t.deleted_regions ∨ k ∈ regs)) ∧
    (∀ (t : ResourceTracker) (fields : List (Nat × Nat)),
      SliceTask.register_field_deletions
          (SliceTask.register_field_deletions t fields) fields =
        SliceTask.register_field_deletions t fields) ∧
    (∀ (t : ResourceTracker) (fields : List (Nat × Nat)),
      t.deleted_fields.Nodup →
      (SliceTask.register_field_deletions t fields).deleted_fields.Nodup ∧
      ∀ k, k ∈ (SliceTask.register_field_deletions t fields).deleted_fields
        ↔ (k ∈ t.deleted_fields ∨ k ∈ fields)) ∧
    (∀ (t : ResourceTracker) (k : Nat) (b : Bool) (rest : List (Nat × Bool)),
      k ∈ t.created_regions.map Prod.fst →
      SliceTask.register_region_creations t ((k, b) :: rest) = none) := by
  refine ⟨?_, ?_, ?_, ?_, ?_⟩
  · intro t regs
    simp [SliceTask.register_region_deletions, registerDeletedSet_idem]
  · intro t regs h
    exact ⟨registerDeletedSet_nodup regs _ h,
      fun k => registerDeletedSet_mem regs _ k⟩
  · intro t fields
    simp [SliceTask.register_field_deletions, registerDeletedSet_idem]
  · intro t fields h
    exact ⟨registerDeletedSet_nodup fields _ h,
      fun k => registerDeletedSet_mem fields _ k⟩
  · intro t k b rest hk
    rw [SliceTask.register_region_creations, registerCreatedMap, if_pos hk]
    rfl

theorem deleted_registration_idempotent_witness :
    ({ ResourceTracker.empty with deleted_regions := [5] } :
        ResourceTracker).deleted_regions.Nodup ∧
    (SliceTask.register_region_deletions
        { ResourceTracker.empty with deleted_regions := [5] }
        [5, 7]).deleted_regions.Nodup ∧
    (5 ∈ (SliceTask.register_region_deletions
        { ResourceTracker.empty with deleted_regions := [5] }
        [5, 7]).deleted_regions ↔
      (5 ∈ ({ ResourceTracker.empty with deleted_regions := [5] } :
          ResourceTracker).deleted_regions ∨ 5 ∈ ([5, 7] : List Nat))) := by
  have h := deleted_registration_idempotent.2.1
    { ResourceTracker.empty with deleted_regions := [5] } [5, 7] (by decide)
  exact ⟨by decide, h.1, h.2 5⟩

/-! ## Mapper slice-output validation (MultiTask::slice_index_space)

A `Mapper::TaskSlice` is modelled by the data the validation reads:
`proc_id` (0 encodes `Processor::NO_PROC`, i.e. `proc.exists()` false), the
slice's point set, whether the mapper supplied `domain_is` and with which
type tag, and the type tag of the `domain` it supplied (used when
`find_or_create_index_launch_space` builds the launch space from the
domain).  A missing launch space (`IndexSpace::NO_SPACE`) has type tag 0;
a real `internal_space` has a nonzero tag. -/

structure TaskSlice where
  proc_id : Nat
  points : List Nat
  domain_is_exists : Bool
  domain_is_tag : Nat
  domain_tag : Nat
  recurse : Bool
  stealable : Bool
deriving DecidableEq, Repr

inductive SliceError where
  | invalidMapperOutputNoSlices
  | invalidMapperOutputInvalidProc
  | invalidMapperOutputTypeMismatch
  | invalidMapperOutputEmptySlice
  | invalidMapperOutputVolumeMismatch
  | physicalTracingRemoteMapping
deriving DecidableEq, Repr

/-- All the `REPORT_LEGION_ERROR(ERROR_INVALID_MAPPER_OUTPUT, ...)` cases of
`slice_index_space`; the remote-tracing error has a different error class. -/
def SliceError.isInvalidMapperOutput : SliceError → Bool
  | .invalidMapperOutputNoSlices => true
  | .invalidMapperOutputInvalidProc => true
  | .invalidMapperOutputTypeMismatch => true
  | .invalidMapperOutputEmptySlice => true
  | .invalidMapperOutputVolumeMismatch => true
  | .physicalTracingRemoteMapping => false

/-- Type tag of the slice's launch space after the
`find_or_create_index_launch_space` step: the given `domain_is` tag if it
exists, the domain's tag if a space is created for a non-empty domain, and
the `NO_SPACE` tag 0 otherwise. -/
def TaskSlice.launch_space_tag (s : TaskSlice) : Nat :=
  if s.domain_is_exists then s.domain_is_tag
  else if 0 < s.points.length then s.domain_tag
  else 0

/-- The per-slice validation loop of `MultiTask::slice_index_space`:
invalid-processor check, launch-space type check, remote-tracing check, and
(only under `DEBUG_LEGION`) the empty-slice check and the running total of
slice volumes. -/
def checkSlices (debug recording : Bool) (isLocalProc : Nat → Bool)
    (internal_tag : Nat) :
    List TaskSlice → Except SliceError (List TaskSlice × Nat)
  | [] => .ok ([], 0)
  | s :: rest =>
      if s.proc_id = 0 then .error .invalidMapperOutputInvalidProc
      else if s.launch_space_tag ≠ internal_tag then
        .error .invalidMapperOutputTypeMismatch
      else if recording && !isLocalProc s.proc_id then
        .error .physicalTracingRemoteMapping
      else if debug && s.points.isEmpty then
        .error .invalidMapperOutputEmptySlice
      else do
        let (acc, tot) ← checkSlices debug recording isLocalProc
          internal_tag rest
        .ok (s :: acc, s.points.length + tot)

/-- `MultiTask::slice_index_space`, from the mapper's `output.slices` to the
accepted slices: empty slice list is a fatal error; each slice is validated
in turn; under `DEBUG_LEGION` the total volume must match the volume of the
internal domain. -/
def MultiTask.slice_index_space (debug recording : Bool)
    (isLocalProc : Nat → Bool) (internal_tag : Nat)
    (internal_domain : List Nat) (output_slices : List TaskSlice) :
    Except SliceError (List TaskSlice) :=
  if output_slices.isEmpty then .error .invalidMapperOutputNoSlices
  else do
    let (slices, total_points) ←
      checkSlices debug recording isLocalProc internal_tag output_slices
    if debug = true ∧ total_points ≠ internal_domain.length then
      .error .invalidMapperOutputVolumeMismatch
    else .ok slices

/-- **C8 (counterexample).** In a non-`DEBUG_LEGION` build, a mapper slice
list whose sub-domains do not partition the input domain — here a single
empty sub-domain against a one-point domain — is accepted without any
error, so the claim as stated (an unconditional fatal policy error) is
false on the code. -/
theorem slice_partition_check_counterexample :
    (∃ s ∈ ([⟨1, [], true, 5, 5, false, false⟩] : List TaskSlice),
      s.points.isEmpty = true) ∧
    ((([⟨1, [], true, 5, 5, false, false⟩] : List TaskSlice)).map
      (fun s => s.points.length)).sum ≠ ([0] : List Nat).length ∧
    MultiTask.slice_index_space false false (fun _ => true) 5 [0]
      [⟨1, [], true, 5, 5, false, false⟩] =
      Except.ok [⟨1, [], true, 5, 5, false, false⟩] := by
  exact ⟨⟨⟨1, [], true, 5, 5, false, false⟩, by decide, by decide⟩,
    by decide, rfl⟩

theorem checkSlices_ok (isLocalProc : Nat → Bool) (tag : Nat)
    (ss : List TaskSlice) :
    ∀ acc tot, checkSlices true false isLocalProc tag ss =
        Except.ok (acc, tot) →
      (∀ s ∈ ss, s.points.isEmpty = false) ∧
      tot = (ss.map (fun s => s.points.length)).sum := by
  induction ss with
  | nil =>
      intro acc tot h
      rw [checkSlices] at h
      simp only [Except.ok.injEq, Prod.mk.injEq] at h
      constructor
      · intro q hq
        exact absurd hq (List.not_mem_nil q)
      · rw [← h.2]
        simp
  | cons s rest ih =>
      intro acc tot h
      rw [checkSlices] at h
      split_ifs at h with h1 h2 h3 h4
      simp only [Bool.and_eq_true, Bool.true_and, Bool.not_eq_true] at h4
      cases hrec : checkSlices true false isLocalProc tag rest with
      | error e =>
          rw [hrec] at h
          exact absurd h (by simp [bind, Except.bind])
      | ok pr =>
          rw [hrec] at h
          obtain ⟨p1, p2⟩ := pr
          simp only [bind, Except.bind, Except.ok.injEq, Prod.mk.injEq] at h
          obtain ⟨hemp, htot⟩ := ih p1 p2 (by rw [hrec])
          constructor
          · intro q hq
            rcases List.mem_cons.mp hq with hq | hq
            · subst hq
              exact h4
            · exact hemp q hq
          · rw [List.map_cons, List.sum_cons, ← h.2, htot]

theorem checkSlices_error_invalid (isLocalProc : Nat → Bool) (tag : Nat)
    (ss : List TaskSlice) :
    ∀ e, checkSlices true false isLocalProc tag ss = Except.error e →
      e.isInvalidMapperOutput = true := by
  induction ss with
  | nil =>
      intro e h
      rw [checkSlices] at h
      exact Except.noConfusion h
  | cons s rest ih =>
      intro e h
      rw [checkSlices] at h
      split_ifs at h with h1 h2 h3 h4
      all_goals try (cases h; rfl)
      all_goals try simp at h3
      cases hrec : checkSlices true false isLocalProc tag rest with
      | error e2 =>
          rw [hrec] at h
          simp only [bind, Except.bind] at h
          cases h
          exact ih _ hrec
      | ok pr =>
          rw [hrec] at h
          obtain ⟨p1, p2⟩ := pr
          simp only [bind, Except.bind] at h
          exact Except.noConfusion h

/-- **C8 (amended).** When the runtime is compiled with its `DEBUG_LEGION`
checks, a slicing-policy output whose sub-domains do not partition the input
domain — an empty returned sub-domain, or a total volume different from the
input volume — makes `slice_index_space` report a fatal
invalid-mapper-output policy error and not continue; without `DEBUG_LEGION`
these two checks are compiled out (see the counterexample). -/
theorem slice_partition_check_debug_error (isLocalProc : Nat → Bool)
    (internal_tag : Nat) (internal_domain : List Nat)
    (output_slices : List TaskSlice)
    (hviol : (∃ s ∈ output_slices, s.points.isEmpty = true) ∨
      (output_slices.map (fun s => s.points.length)).sum ≠
        internal_domain.length) :
    ∃ e, MultiTask.slice_index_space true false isLocalProc internal_tag
        internal_domain output_slices = Except.error e ∧
      e.isInvalidMapperOutput = true := by
  rw [MultiTask.slice_index_space]
  by_cases hemp : output_slices.isEmpty = true
  · rw [if_pos hemp]
    exact ⟨SliceError.invalidMapperOutputNoSlices, rfl, rfl⟩
  · rw [if_neg hemp]
    cases hchk : checkSlices true false isLocalProc internal_tag
        output_slices with
    | error e =>
        refine ⟨e, ?_, checkSlices_error_invalid _ _ _ e hchk⟩
        simp only [bind, Except.bind, hchk]
    | ok pr =>
        obtain ⟨slices, total⟩ := pr
        obtain ⟨hne, htot⟩ :=
          checkSlices_ok isLocalProc internal_tag output_slices slices
            total hchk
        have hsum : total ≠ internal_domain.length := by
          rw [htot]
          rcases hviol with ⟨s, hs, hse⟩ | hv
          · exact absurd hse (by simp [hne s hs])
          · exact hv
        refine ⟨SliceError.invalidMapperOutputVolumeMismatch, ?_, rfl⟩
        simp only [bind, Except.bind, hchk]
        rw [if_pos (And.intro (by simp) hsum)]

theorem slice_partition_check_debug_error_witness :
    ((∃ s ∈ ([⟨1, [], true, 5, 5, false, false⟩] : List TaskSlice),
        s.points.isEmpty = true) ∨
      (([⟨1, [], true, 5, 5, false, false⟩] : List TaskSlice).map
        (fun s => s.points.length)).sum ≠ ([0] : List Nat).length) ∧
    ∃ e, MultiTask.slice_index_space true false (fun _ => true) 5 [0]
        [⟨1, [], true, 5, 5, false, false⟩] = Except.error e ∧
      e.isInvalidMapperOutput = true :=
  ⟨Or.inl ⟨⟨1, [], true, 5, 5, false, false⟩, by decide, by decide⟩,
    slice_partition_check_debug_error (fun _ => true) 5 [0]
      [⟨1, [], true, 5, 5, false, false⟩]
      (Or.inl ⟨⟨1, [], true, 5, 5, false, false⟩, by decide, by decide⟩)⟩

end Legion
